import Mathlib

/-!
Verification development for the text-anonymization pipeline of
src/data_anonymizer.py (class DataAnonymizer) and its Streamlit front end
src/app.py.

The Python code is shallowly embedded: text is a list of characters, the
Python string methods used by the source (isupper/islower/istitle/isalpha/
isalnum/lower/title/capitalize/split/strip/replace/endswith/startswith) are
modelled on their ASCII fragment, and the two regular expressions of the
local detectors are executed by a small backtracking matcher with Python's
greedy, first-success semantics.  All recursion is structural (fuelled where
the source uses while-loops), so every definition evaluates inside the
kernel.
-/

/-- The word characters of a Python regex (models the ASCII fragment of a
string's word class used by a backslash-b boundary). -/
def isWordChar (c : Char) : Bool := c.isAlpha || c.isDigit || c = '_'

/-- Characters counted as alphanumeric by Python's str.isalnum (ASCII
fragment). -/
def isAlnumChar (c : Char) : Bool := c.isAlpha || c.isDigit

/-- Python whitespace for str.split() / str.strip() (ASCII fragment:
space, tab, newline, carriage return, vertical tab, form feed). -/
def pyIsSpace (c : Char) : Bool :=
  c = ' ' || c = Char.ofNat 9 || c = Char.ofNat 10 || c = Char.ofNat 13 ||
  c = Char.ofNat 11 || c = Char.ofNat 12

/-- A character is cased (ASCII fragment): an upper- or lowercase letter. -/
def pyCased (c : Char) : Bool := c.isUpper || c.isLower

/-- Python str.isupper: at least one cased character and no lowercase one. -/
def pyIsUpper (w : List Char) : Bool :=
  w.any pyCased && !(w.any Char.isLower)

/-- Python str.islower: at least one cased character and no uppercase one. -/
def pyIsLower (w : List Char) : Bool :=
  w.any pyCased && !(w.any Char.isUpper)

/-- Python str.isalpha: nonempty and all characters alphabetic. -/
def pyIsAlpha (w : List Char) : Bool :=
  !w.isEmpty && w.all Char.isAlpha

/-- Python str.isalnum: nonempty and all characters alphanumeric. -/
def pyIsAlnum (w : List Char) : Bool :=
  !w.isEmpty && w.all isAlnumChar

/-- Helper for pyIsTitle: walks the string tracking whether the previous
character was cased and whether a cased character was seen at all, exactly
as CPython's str.istitle does. -/
def pyIsTitleGo : Bool → Bool → List Char → Bool
  | _, seen, [] => seen
  | prev, seen, c :: r =>
    if c.isUpper then (if prev then false else pyIsTitleGo true true r)
    else if c.isLower then (if prev then pyIsTitleGo true true r else false)
    else pyIsTitleGo false seen r

/-- Python str.istitle (ASCII fragment): uppercase characters only start
cased runs, lowercase characters only continue them, and at least one cased
character occurs. -/
def pyIsTitle (w : List Char) : Bool := pyIsTitleGo false false w

/-- Python str.lower (ASCII fragment). -/
def pyLower (w : List Char) : List Char := w.map Char.toLower

/-- Python str.capitalize (ASCII fragment): first character uppercased, the
rest lowercased. -/
def pyCapitalize : List Char → List Char
  | [] => []
  | c :: r => c.toUpper :: r.map Char.toLower

/-- Helper for pyTitle tracking whether the previous character was cased. -/
def pyTitleGo : Bool → List Char → List Char
  | _, [] => []
  | prev, c :: r =>
    if pyCased c then
      (if prev then c.toLower else c.toUpper) :: pyTitleGo true r
    else c :: pyTitleGo false r

/-- Python str.title (ASCII fragment): a cased character is uppercased when
the previous character is not cased and lowercased otherwise. -/
def pyTitle (w : List Char) : List Char := pyTitleGo false w

/-- Python str.strip() with no argument: remove leading and trailing
whitespace. -/
def pyStrip (w : List Char) : List Char :=
  ((w.dropWhile pyIsSpace).reverse.dropWhile pyIsSpace).reverse

/-- Python s.endswith(p): p is a suffix of s. -/
def listEndsWith (s p : List Char) : Bool :=
  decide (p <:+ s)

/-- Python s.startswith(p): p is a prefix of s. -/
def listStartsWith (s p : List Char) : Bool :=
  decide (p <+: s)

/-- Python s[a:b] slicing for a text modelled as a character list (clamped
at the ends like Python slices). -/
def pySlice (t : List Char) (a b : Nat) : List Char := (t.drop a).take (b - a)

/-- Regular-expression fragment used by the two local detectors of
data_anonymizer.py: single-character classes, sequencing, greedy option,
greedy unbounded repetition of a character class with a minimum count, and
the word-boundary assertion.  Bounded repetitions of the source patterns
are desugared into nested greedy options. -/
inductive RE where
  | eps : RE
  | cls (p : Char → Bool) : RE
  | seq (a b : RE) : RE
  | opt (a : RE) : RE
  | rep (p : Char → Bool) (lo : Nat) : RE
  | wb : RE

/-- Whether position i of t holds a regex word character (out of range
counts as no). -/
def isWordAt (t : List Char) (i : Nat) : Bool :=
  match t[i]? with
  | some c => isWordChar c
  | none => false

/-- Python's backslash-b: exactly one of the two sides of position i is a
word character. -/
def atWordBoundary (t : List Char) (i : Nat) : Bool :=
  (if i = 0 then false else isWordAt t (i - 1)) != isWordAt t i

/-- Length of the maximal run of characters satisfying p starting at
position i. -/
def runLen (p : Char → Bool) (t : List Char) (i : Nat) : Nat :=
  ((t.drop i).takeWhile p).length

/-- Greedy backtracking for an unbounded repetition: try the continuation
after consuming n characters, then n-1, ..., down to the minimum lo. -/
def tryDown (k : Nat → Option Nat) (base lo : Nat) : Nat → Option Nat
  | 0 => if lo = 0 then k base else none
  | n + 1 =>
    if n + 1 < lo then none
    else
      match k (base + (n + 1)) with
      | some r => some r
      | none => tryDown k base lo n

/-- CPS backtracking matcher with Python's preference order: greedy
repetition and option, first success wins.  Returns the end position of
the overall match found by the continuation k. -/
def reMatch : RE → List Char → (Nat → Option Nat) → Nat → Option Nat
  | .eps, _, k, i => k i
  | .cls p, t, k, i =>
    match t[i]? with
    | some c => if p c then k (i + 1) else none
    | none => none
  | .seq a b, t, k, i => reMatch a t (fun j => reMatch b t k j) i
  | .opt a, t, k, i =>
    match reMatch a t k i with
    | some r => some r
    | none => k i
  | .rep p lo, t, k, i => tryDown k i lo (runLen p t i)
  | .wb, t, k, i => if atWordBoundary t i then k i else none

/-- Attempt to match r at position i of t; on success return the end
position of the leftmost-starting match preferred by Python's backtracking
order. -/
def reMatchAt (r : RE) (t : List Char) (i : Nat) : Option Nat :=
  reMatch r t (fun j => some j) i

/-- Fuelled scan of re.finditer: try each start position left to right and
continue after the end of each (non-overlapping) match found.  The fuel
t.length + 1 is enough because every step advances the position. -/
def finditerGo (r : RE) (t : List Char) : Nat → Nat → List (Nat × Nat)
  | 0, _ => []
  | f + 1, i =>
    if i > t.length then []
    else
      match reMatchAt r t i with
      | some e =>
        if i < e then (i, e) :: finditerGo r t f e
        else (i, e) :: finditerGo r t f (i + 1)
      | none => finditerGo r t f (i + 1)

/-- Python re.finditer over the character-list text: the list of
(start, end) spans of the non-overlapping matches, scanned left to right. -/
def finditer (r : RE) (t : List Char) : List (Nat × Nat) :=
  finditerGo r t (t.length + 1) 0

/-- Digits 0-9. -/
def clsD : RE := .cls Char.isDigit

/-- The separator class of the phone patterns, a hyphen or a dot. -/
def clsSep : RE := .cls (fun c => c = '-' || c = '.')

/-- An optional single occurrence of a character class. -/
def optC (p : Char → Bool) : RE := .opt (.cls p)

/-- lo mandatory copies of a character class followed by up to extra more,
the desugaring of a bounded greedy repetition of the class. -/
def seqN (p : Char → Bool) : Nat → RE → RE
  | 0, rest => rest
  | n + 1, rest => .seq (.cls p) (seqN p n rest)

/-- extra nested greedy options of a character class, the tail of a bounded
repetition. -/
def optChain (p : Char → Bool) : Nat → RE
  | 0 => .eps
  | n + 1 => .opt (.seq (.cls p) (optChain p n))

/-- Bounded greedy repetition of a character class between lo and hi
occurrences. -/
def repB (p : Char → Bool) (lo hi : Nat) : RE :=
  seqN p lo (optChain p (hi - lo))

/-- Sequence of a list of regexes. -/
def seqAll : List RE → RE
  | [] => .eps
  | r :: rs => .seq r (seqAll rs)

/-- The optional international prefix of every phone pattern. -/
def intlOpt : RE :=
  .opt (.seq (optC (fun c => c = '+')) (.seq (repB Char.isDigit 1 3) (.opt clsSep)))

/-- Phone pattern 1 of _detect_phone: the standard US/Canada grouping. -/
def phoneRe1 : RE :=
  seqAll [.wb, intlOpt, optC (fun c => c = '('), repB Char.isDigit 3 3,
          optC (fun c => c = ')'), .opt clsSep, repB Char.isDigit 3 3,
          .opt clsSep, repB Char.isDigit 4 4, .wb]

/-- Phone pattern 2 of _detect_phone: the international grouping. -/
def phoneRe2 : RE :=
  seqAll [.wb, intlOpt, repB Char.isDigit 2 4, .opt clsSep,
          repB Char.isDigit 2 4, .opt clsSep, repB Char.isDigit 2 4, .wb]

/-- Phone pattern 3 of _detect_phone: the flexible grouping. -/
def phoneRe3 : RE :=
  seqAll [.wb, intlOpt, repB Char.isDigit 1 4, .opt clsSep,
          repB Char.isDigit 1 4, .opt clsSep, repB Char.isDigit 1 4, .wb]

/-- Phone pattern 4 of _detect_phone: the short grouping. -/
def phoneRe4 : RE :=
  seqAll [.wb, intlOpt, repB Char.isDigit 1 3, .opt clsSep,
          repB Char.isDigit 1 3, .opt clsSep, repB Char.isDigit 1 3, .wb]

/-- Phone pattern 5 of _detect_phone: the very short grouping. -/
def phoneRe5 : RE :=
  seqAll [.wb, intlOpt, repB Char.isDigit 1 2, .opt clsSep,
          repB Char.isDigit 1 2, .opt clsSep, repB Char.isDigit 1 2, .wb]

/-- The ordered pattern cascade of _detect_phone. -/
def phonePatterns : List RE := [phoneRe1, phoneRe2, phoneRe3, phoneRe4, phoneRe5]

/-- The local part class of the email pattern of _detect_email. -/
def emailLocalChar (c : Char) : Bool :=
  c.isAlpha || c.isDigit || c = '.' || c = '_' || c = '%' || c = '+' || c = '-'

/-- The domain class of the email pattern. -/
def emailDomainChar (c : Char) : Bool :=
  c.isAlpha || c.isDigit || c = '.' || c = '-'

/-- The top-level-domain class of the email pattern; the source's character
class also contains a literal pipe. -/
def emailTldChar (c : Char) : Bool :=
  c.isUpper || c = '|' || c.isLower

/-- The email regex of _detect_email. -/
def emailRe : RE :=
  seqAll [.wb, .rep emailLocalChar 1, .cls (fun c => c = '@'),
          .rep emailDomainChar 1, .cls (fun c => c = '.'),
          .rep emailTldChar 2, .wb]

/-- Python w.replace(chars removed) for the phone validation of
_detect_phone: strip every hyphen, dot and parenthesis. -/
def stripPhoneSeps (w : List Char) : List Char :=
  w.filter (fun c => !(c = '-' || c = '.' || c = '(' || c = ')'))

/-- Python w.replace applied to hyphens only, used by the fragment filter
of anonymize_text. -/
def removeHyphens (w : List Char) : List Char :=
  w.filter (fun c => !(c = '-'))

/-- An entity span as built by anonymize_text: the cleaned entity group,
the start and end offsets (source keys 'start' and 'end'; the latter is a
reserved word here, hence the field name stop), the surface word, and the
optional resolved replacement (absent for email spans, whose dict carries
no 'replacement' key). -/
structure Entity where
  entity : List Char
  start : Nat
  stop : Nat
  word : List Char
  replacement : Option (List Char)
deriving DecidableEq

/-- A raw record of the classifier response after key extraction: the label
(from 'entity_group' or 'label'), offsets, and surface word, with the
defaults of the dict.get calls of lines 203-209 already applied. -/
structure NerRecord where
  entity_group : List Char
  start : Nat
  stop : Nat
  word : List Char
deriving DecidableEq

/-- The replacement_dict of the DataAnonymizer constructor. -/
def replacementDict (g : List Char) : Option (List Char) :=
  if g = (r"PER").toList then some ((r"[PERSON]").toList)
  else if g = (r"ORG").toList then some ((r"[ORGANIZATION]").toList)
  else if g = (r"LOC").toList then some ((r"[LOCATION]").toList)
  else if g = (r"MISC").toList then some ((r"[MISC]").toList)
  else if g = (r"EMAIL").toList then some ((r"[EMAIL]").toList)
  else if g = (r"PHONE").toList then some ((r"[PHONE]").toList)
  else none

/-- The location_suffixes tuple of anonymize_text. -/
def locationSuffixes : List (List Char) :=
  [(r"burg").toList, (r"berg").toList, (r"town").toList, (r"city").toList,
   (r"ville").toList, (r"polis").toList, (r"grad").toList, (r"abad").toList,
   (r"pur").toList, (r"nagar").toList, (r"pore").toList, (r"stan").toList,
   (r"land").toList, (r"ia").toList, (r"ya").toList]

/-- The location_prefixes tuple of anonymize_text. -/
def locationPrefixes : List (List Char) :=
  [(r"new").toList, (r"old").toList, (r"north").toList, (r"south").toList,
   (r"east").toList, (r"west").toList, (r"upper").toList, (r"lower").toList,
   (r"port").toList, (r"fort").toList, (r"saint").toList, (r"san").toList,
   (r"santa").toList]

/-- The fourth nordic surname entry of the source is mojibake: the letter d
followed by U+221A and U+2265, then ttir; embedded byte for byte. -/
def nordicMojibake : List Char :=
  ['d', Char.ofNat 8730, Char.ofNat 8805, 't', 't', 'i', 'r']

/-- The surname_patterns dict of anonymize_text, flattened in source order
(slavic, asian, nordic, middle_eastern, indian, hispanic); the repetition
of oglu in the source is kept. -/
def surnamePatterns : List (List Char) :=
  [(r"ov").toList, (r"ev").toList, (r"ski").toList, (r"sky").toList,
   (r"ova").toList, (r"eva").toList,
   (r"yan").toList, (r"ian").toList, (r"jin").toList, (r"chen").toList,
   (r"li").toList, (r"wang").toList,
   (r"sen").toList, (r"sson").toList, (r"dottir").toList, nordicMojibake,
   (r"zadeh").toList, (r"oglu").toList, (r"oglu").toList, (r"oglu").toList,
   (r"pour").toList,
   (r"raj").toList, (r"kumar").toList, (r"singh").toList, (r"patel").toList,
   (r"sharma").toList,
   (r"ez").toList, (r"es").toList, (r"os").toList, (r"as").toList,
   (r"is").toList]

/-- The surname check of line 226: some listed suffix ends word.lower(). -/
def isSurname (w : List Char) : Bool :=
  surnamePatterns.any (fun p => listEndsWith (pyLower w) p)

/-- The location check of line 255: word.lower() ends with a location
suffix or starts with a location prefix. -/
def isLocationShaped (w : List Char) : Bool :=
  locationSuffixes.any (fun p => listEndsWith (pyLower w) p) ||
  locationPrefixes.any (fun p => listStartsWith (pyLower w) p)

/-- The per-category replacement resolution of anonymize_text lines
216-262, a direct transcription of the cascading conditionals. -/
def resolveReplacement (g w : List Char) : List Char :=
  if g = (r"PER").toList then
    if pyIsUpper w && pyIsAlpha w then (r"[PERSON]").toList
    else if pyIsLower w then (r"[person]").toList
    else if pyIsTitle w then
      (if isSurname w then (r"[SURNAME]").toList else (r"[Person]").toList)
    else (r"[PERSON]").toList
  else if g = (r"ORG").toList then
    if pyIsUpper w && pyIsAlpha w then (r"[PERSON]").toList
    else if pyIsTitle w && pyIsAlpha w then (r"[Person]").toList
    else if !(pyIsAlpha w) then (r"[ORGANIZATION]").toList
    else (replacementDict g).getD ((r"[UNKNOWN]").toList)
  else if g = (r"LOC").toList then
    if pyIsUpper w && pyIsAlpha w then (r"[PERSON]").toList
    else if pyIsTitle w && pyIsAlpha w then
      (if isLocationShaped w then (r"[LOCATION]").toList
       else (r"[Person]").toList)
    else (replacementDict g).getD ((r"[UNKNOWN]").toList)
  else (replacementDict g).getD ((r"[UNKNOWN]").toList)

/-- The BIO prefix strip of line 205: when the label contains a hyphen,
keep the segment after the last one (split('-')[-1]); otherwise keep the
label. -/
def bioStrip (g : List Char) : List Char :=
  if g.contains '-' then (g.reverse.takeWhile (fun c => !(c = '-'))).reverse
  else g

/-- Lines 200-270 of anonymize_text for a single classifier record: clean
the label, apply the fragment filter (length below 2, or surface minus
hyphens not alphanumeric, discards the record), and resolve the
replacement. -/
def processNer (rec : NerRecord) : Option Entity :=
  let g := bioStrip rec.entity_group
  if rec.word.length < 2 || !(pyIsAlnum (removeHyphens rec.word)) then none
  else some ⟨g, rec.start, rec.stop, rec.word,
             some (resolveReplacement g rec.word)⟩

/-- _detect_email: every match of the email pattern becomes an EMAIL span;
the dict carries no replacement. -/
def detect_email (t : List Char) : List Entity :=
  (finditer emailRe t).map
    (fun m => ⟨(r"EMAIL").toList, m.1, m.2, pySlice t m.1 m.2, none⟩)

/-- _detect_phone: every match of every pattern in the cascade whose
matched substring, stripped of hyphens, dots and parentheses, still has at
least 6 characters becomes a PHONE span with replacement preset. -/
def detect_phone (t : List Char) : List Entity :=
  (phonePatterns.map (fun p =>
    (finditer p t).filterMap (fun m =>
      let w := pySlice t m.1 m.2
      if (stripPhoneSeps w).length ≥ 6 then
        some ⟨(r"PHONE").toList, m.1, m.2, w, some ((r"[PHONE]").toList)⟩
      else none))).flatten

/-- The NFKC table fragment modelling unicodedata.normalize('NFKC', .):
compatibility mappings for a finite set of characters, identity elsewhere;
every produced character is NFKC-stable. -/
def nfkcMap (c : Char) : List Char :=
  if c = Char.ofNat 0xFB01 then ['f', 'i']
  else if c = Char.ofNat 0xFB02 then ['f', 'l']
  else if c = Char.ofNat 0xFB00 then ['f', 'f']
  else if c = Char.ofNat 0xB9 then ['1']
  else if c = Char.ofNat 0xB2 then ['2']
  else if c = Char.ofNat 0xB3 then ['3']
  else if c = Char.ofNat 0xFF21 then ['A']
  else if c = Char.ofNat 0xFF41 then ['a']
  else if c = Char.ofNat 0xFF15 then ['5']
  else if c = Char.ofNat 0x3000 then [' ']
  else if c = Char.ofNat 0x2160 then ['I']
  else if c = Char.ofNat 0x2116 then ['N', 'o']
  else if c = Char.ofNat 0xB5 then [Char.ofNat 0x3BC]
  else if c = Char.ofNat 0xBD then ['1', Char.ofNat 0x2044, '2']
  else [c]

/-- The finite domain of the NFKC table fragment. -/
def isNfkcKey (c : Char) : Bool :=
  c = Char.ofNat 0xFB01 || c = Char.ofNat 0xFB02 || c = Char.ofNat 0xFB00 ||
  c = Char.ofNat 0xB9 || c = Char.ofNat 0xB2 || c = Char.ofNat 0xB3 ||
  c = Char.ofNat 0xFF21 || c = Char.ofNat 0xFF41 || c = Char.ofNat 0xFF15 ||
  c = Char.ofNat 0x3000 || c = Char.ofNat 0x2160 || c = Char.ofNat 0x2116 ||
  c = Char.ofNat 0xB5 || c = Char.ofNat 0xBD

/-- _normalize_text: unicodedata.normalize('NFKC', text), modelled by the
finite compatibility table applied pointwise. -/
def normalize_text (t : List Char) : List Char :=
  (t.map nfkcMap).flatten

/-- Python line.split() (whitespace split, empty tokens dropped), written
with an accumulator so that the recursion is structural. -/
def pySplitGo : List Char → List Char → List (List Char)
  | [], acc => if acc.isEmpty then [] else [acc.reverse]
  | c :: r, acc =>
    if pyIsSpace c then
      (if acc.isEmpty then pySplitGo r [] else acc.reverse :: pySplitGo r [])
    else pySplitGo r (c :: acc)

/-- Python line.split(): the whitespace-delimited tokens of the line. -/
def pySplit (l : List Char) : List (List Char) := pySplitGo l []

/-- Python text.split(newline): split at every newline, keeping empty
parts. -/
def pySplitLines : List Char → List (List Char)
  | [] => [[]]
  | c :: r =>
    if c = Char.ofNat 10 then [] :: pySplitLines r
    else
      match pySplitLines r with
      | [] => [[c]]
      | w :: ws => (c :: w) :: ws

/-- The per-token branch of _preprocess_text lines 65-81: title-case long
all-uppercase alphabetic tokens, capitalize long all-lowercase alphabetic
tokens, pass everything else through. -/
def preprocessWord (w : List Char) : List Char :=
  if pyIsUpper w && decide (w.length > 2) then
    (if pyIsAlpha w then pyTitle w else w)
  else if pyIsLower w && decide (w.length > 2) then
    (if pyIsAlpha w && (w.headD ' ').isAlpha then pyCapitalize w else w)
  else w

/-- Python sep.join(xs): the parts interleaved with the separator. -/
def joinSep (sep : List Char) : List (List Char) → List Char
  | [] => []
  | [x] => x
  | x :: y :: r => x ++ sep ++ joinSep sep (y :: r)

/-- The per-line pass of _preprocess_text: split the line on whitespace,
process every token, re-join with single spaces. -/
def preprocessLine (l : List Char) : List Char :=
  joinSep [' '] ((pySplit l).map preprocessWord)

/-- _preprocess_text: process every newline-separated line and re-join the
lines with newlines. -/
def preprocess (t : List Char) : List Char :=
  joinSep [Char.ofNat 10] ((pySplitLines t).map preprocessLine)

/-- Whether position i of t holds an alphanumeric character (out of range
counts as no; the source would raise IndexError for an offset beyond the
text, so the theorems below restrict offsets to the in-range case). -/
def isAlnumAt (t : List Char) (i : Nat) : Bool :=
  match t[i]? with
  | some c => isAlnumChar c
  | none => false

/-- The left word-boundary while-loop of lines 285-286: decrement start
while the preceding character is alphanumeric. -/
def expandLeft (t : List Char) : Nat → Nat
  | 0 => 0
  | s + 1 => if isAlnumAt t s then expandLeft t s else s + 1

/-- Fuelled form of the right word-boundary while-loop of lines 287-288:
increment the end while it is inside the text and the character there is
alphanumeric. -/
def expandRightF (t : List Char) : Nat → Nat → Nat
  | 0, e => e
  | f + 1, e => if isAlnumAt t e then expandRightF t f (e + 1) else e

/-- The right word-boundary expansion; fuel t.length + 1 always suffices
because the loop cannot move past the end of the text. -/
def expandRight (t : List Char) (e : Nat) : Nat :=
  expandRightF t (t.length + 1) e

/-- Line 278: the span's replacement, with the replacement-dict lookup (and
its [UNKNOWN] default) as the fallback for spans that carry none. -/
def effRepl (e : Entity) : List Char :=
  e.replacement.getD ((replacementDict e.entity).getD ((r"[UNKNOWN]").toList))

/-- One iteration of the replacement loop of lines 277-297 over the working
text: expand the offsets to word boundaries, and when both boundaries land
on non-alphanumeric characters or text edges and the expanded slice is
alphanumeric and longer than one character, splice the replacement in;
return the new text and the expanded interval when a replacement was
applied. -/
def replaceStepT (t : List Char) (e : Entity) : List Char × Option (Nat × Nat) :=
  let s := expandLeft t e.start
  let f := expandRight t e.stop
  if ((s == 0) || !(isAlnumAt t (s - 1))) &&
     ((f == t.length) || !(isAlnumAt t f)) then
    let w := pySlice t s f
    if pyIsAlnum w && decide (w.length > 1) then
      (t.take s ++ effRepl e ++ t.drop f, some (s, f))
    else (t, none)
  else (t, none)

/-- The replacement loop folded over the sorted entity list, collecting for
the development the spans that were actually applied together with the
expanded interval each replacement was spliced at. -/
def rewriteStep (acc : List Char × List (Entity × Nat × Nat)) (e : Entity) :
    List Char × List (Entity × Nat × Nat) :=
  match replaceStepT acc.1 e with
  | (t, some sf) => (t, acc.2 ++ [(e, sf.1, sf.2)])
  | (t, none) => (t, acc.2)

/-- Stable insertion of an entity into a list sorted by descending start:
the entity goes in front of the first element whose start is not larger,
so equal starts keep their original order, as Python's stable sort does. -/
def insertDesc (e : Entity) : List Entity → List Entity
  | [] => [e]
  | x :: xs => if x.start ≤ e.start then e :: x :: xs else x :: insertDesc e xs

/-- all_entities.sort(key=start, reverse=True) of line 273: a stable sort
by descending start offset. -/
def sortDesc : List Entity → List Entity
  | [] => []
  | e :: es => insertDesc e (sortDesc es)

/-- Lines 199-272: the classifier records are cleaned, filtered and
resolved, then the local email and phone spans are appended unchanged. -/
def mergedEntities (ner : List NerRecord) (t : List Char) : List Entity :=
  ner.filterMap processNer ++ (detect_email t ++ detect_phone t)

/-- Lines 272-297 applied to the already-normalized text: merge, sort by
descending start, and run the replacement loop, keeping the applied-span
trace. -/
def resolveAndRewrite (ner : List NerRecord) (t : List Char) :
    List Char × List (Entity × Nat × Nat) :=
  (sortDesc (mergedEntities ner t)).foldl rewriteStep (t, [])

/-- anonymize_text with the classifier response supplied as a stub list
(its only effectful input), returning the final text and the trace of
applied spans. -/
def anonymizeTrace (ner : List NerRecord) (text : List Char) :
    List Char × List (Entity × Nat × Nat) :=
  resolveAndRewrite ner (normalize_text text)

/-- anonymize_text (lines 167-298): the anonymized text for a given
classifier response. -/
def anonymize_text (ner : List NerRecord) (text : List Char) : List Char :=
  (anonymizeTrace ner text).1

/-- The text _query_model posts to the classifier for a given input of
anonymize_text: line 176 normalizes, line 148 preprocesses, line 150 sends
the result; there is no branch in between. -/
def classifierInput (text : List Char) : List Char :=
  preprocess (normalize_text text)

/-- anonymize_text instrumented with its classifier traffic: the list of
texts posted to the remote model (always exactly the one built by
_query_model, since the call at line 179 is unconditional) together with
the result. -/
def anonymizeWithClassifier (classify : List Char → List NerRecord)
    (text : List Char) : List (List Char) × List Char :=
  ([classifierInput text],
   (resolveAndRewrite (classify (classifierInput text)) (normalize_text text)).1)

/-- The guard of app.py line 64: the Anonymize button body runs (and hence
the classifier is queried) only when input_text.strip() is truthy, a
nonempty string. -/
def appButtonRuns (input : List Char) : Bool :=
  !(pyStrip input).isEmpty

/-- app.py line 128: the warning shown instead of an error when the guard
fails. -/
def appEmptyInputWarning : List Char :=
  (r"Please enter some text to anonymize.").toList

/-- Sum of the lengths of a list of strings. -/
def sumLens (xs : List (List Char)) : Nat := (xs.map List.length).sum

/-- Two adjacent whitespace characters occur somewhere in the line. -/
def hasDoubleSpace : List Char → Bool
  | [] => false
  | [_] => false
  | a :: b :: r => (pyIsSpace a && pyIsSpace b) || hasDoubleSpace (b :: r)

/-- A line with consecutive whitespace characters, leading whitespace, or
trailing whitespace (the shapes whose single-space re-join shortens it). -/
def lineBadWS (l : List Char) : Bool :=
  hasDoubleSpace l ||
  (match l.head? with
   | some c => pyIsSpace c
   | none => false) ||
  (match l.getLast? with
   | some c => pyIsSpace c
   | none => false)

/-- Positions a..b-1 of t are alphanumeric, position b is not (or is past
the end), and position a-1 is not (or a is the start): the interval is a
maximal alphanumeric run of t. -/
def maxAlnumRun (t : List Char) (a b : Nat) : Prop :=
  (∀ i < b, a ≤ i → isAlnumAt t i = true) ∧
  isAlnumAt t b = false ∧
  (a = 0 ∨ isAlnumAt t (a - 1) = false)

/-- The left end of the whole-word expansion of a span in text t. -/
def runL (t : List Char) (e : Entity) : Nat := expandLeft t e.start

/-- The right end of the whole-word expansion of a span in text t. -/
def runR (t : List Char) (e : Entity) : Nat := expandRight t e.stop

/-- The whole-word expansions of the two spans in text t do not overlap. -/
def DisjRuns (t : List Char) (a b : Entity) : Prop :=
  runR t a ≤ runL t b ∨ runR t b ≤ runL t a

/-- Well-formed span offsets for text t: nonempty and inside the text. -/
def WFSpan (t : List Char) (e : Entity) : Prop :=
  e.start < e.stop ∧ e.stop ≤ t.length

/-- The two spans share no character offset. -/
def SpansDisjoint (a b : Entity) : Prop :=
  a.stop ≤ b.start ∨ b.stop ≤ a.start

instance (t : List Char) (e : Entity) : Decidable (WFSpan t e) :=
  inferInstanceAs (Decidable (e.start < e.stop ∧ e.stop ≤ t.length))

instance (t : List Char) (a b : Entity) : Decidable (DisjRuns t a b) :=
  inferInstanceAs (Decidable (runR t a ≤ runL t b ∨ runR t b ≤ runL t a))

instance (a b : Entity) : Decidable (SpansDisjoint a b) :=
  inferInstanceAs (Decidable (a.stop ≤ b.start ∨ b.stop ≤ a.start))


lemma nfkcMap_of_not_key (c : Char) (h : isNfkcKey c = false) :
    nfkcMap c = [c] := by
  simp only [isNfkcKey, Bool.or_eq_false_iff, decide_eq_false_iff_not] at h
  obtain ⟨⟨⟨⟨⟨⟨⟨⟨⟨⟨⟨⟨⟨h1, h2⟩, h3⟩, h4⟩, h5⟩, h6⟩, h7⟩, h8⟩, h9⟩, h10⟩,
    h11⟩, h12⟩, h13⟩, h14⟩ := h
  simp only [nfkcMap, if_neg h1, if_neg h2, if_neg h3, if_neg h4, if_neg h5,
    if_neg h6, if_neg h7, if_neg h8, if_neg h9, if_neg h10, if_neg h11,
    if_neg h12, if_neg h13, if_neg h14]

lemma nfkcMap_stable (c : Char) : ∀ c' ∈ nfkcMap c, nfkcMap c' = [c'] := by
  by_cases hk : isNfkcKey c = true
  · simp only [isNfkcKey, Bool.or_eq_true, decide_eq_true_eq] at hk
    rcases hk with ((((((((((((h1 | h1) | h1) | h1) | h1) | h1) | h1) | h1) |
      h1) | h1) | h1) | h1) | h1) | h1 <;> (subst h1; decide)
  · rw [Bool.not_eq_true] at hk
    intro c' h
    rw [nfkcMap_of_not_key c hk, List.mem_singleton] at h
    rw [h]
    exact nfkcMap_of_not_key c hk

lemma normalize_append (a b : List Char) :
    normalize_text (a ++ b) = normalize_text a ++ normalize_text b := by
  unfold normalize_text
  rw [List.map_append, List.flatten_append]

lemma normalize_of_stable (l : List Char) (h : ∀ c ∈ l, nfkcMap c = [c]) :
    normalize_text l = l := by
  induction l with
  | nil => rfl
  | cons c r ih =>
    show nfkcMap c ++ normalize_text r = c :: r
    rw [h c (List.mem_cons_self c r), ih (fun x hx => h x (List.mem_cons_of_mem c hx))]
    rfl

/-- C9: the text normalizer is idempotent: normalizing twice equals
normalizing once, where _normalize_text applies the NFKC compatibility
mapping (modelled here by its finite stable-target table) without case
folding. -/
theorem c9_normalize_idempotent (t : List Char) :
    normalize_text (normalize_text t) = normalize_text t := by
  induction t with
  | nil => rfl
  | cons c r ih =>
    have hc : normalize_text (nfkcMap c) = nfkcMap c :=
      normalize_of_stable (nfkcMap c) (nfkcMap_stable c)
    calc normalize_text (normalize_text (c :: r))
        = normalize_text (nfkcMap c ++ normalize_text r) := rfl
      _ = normalize_text (nfkcMap c) ++ normalize_text (normalize_text r) :=
          normalize_append (nfkcMap c) (normalize_text r)
      _ = nfkcMap c ++ normalize_text r := by rw [hc, ih]
      _ = normalize_text (c :: r) := rfl

lemma char_upper_or_lower (c : Char) (h : c.isAlpha = true) :
    c.isUpper = true ∨ c.isLower = true := by
  simp only [Char.isAlpha, Bool.or_eq_true] at h
  exact h

lemma pyIsUpper_eq_false_of_lower (w : List Char) (h : pyIsLower w = true) :
    pyIsUpper w = false := by
  simp only [pyIsLower, Bool.and_eq_true, Bool.not_eq_true',
    List.any_eq_false] at h
  obtain ⟨hc, hu⟩ := h
  simp only [List.any_eq_true] at hc
  obtain ⟨c, hm, hcc⟩ := hc
  simp only [pyCased, Bool.or_eq_true] at hcc
  have hl : c.isLower = true := by
    rcases hcc with h1 | h1
    · exact absurd h1 (by simp [hu c hm])
    · exact h1
  have hany : w.any Char.isLower = true := List.any_eq_true.mpr ⟨c, hm, hl⟩
  simp [pyIsUpper, hany]

lemma titleGo_upper (w : List Char) : ∀ seen : Bool,
    pyIsTitleGo false seen w = true → seen = true ∨ w.any Char.isUpper = true := by
  induction w with
  | nil => intro seen h; exact Or.inl h
  | cons c r ih =>
    intro seen h
    simp only [pyIsTitleGo] at h
    by_cases hu : c.isUpper = true
    · right
      simp [List.any_cons, hu]
    · rw [Bool.not_eq_true] at hu
      rw [hu] at h
      simp only [Bool.false_eq_true, if_false] at h
      by_cases hl : c.isLower = true
      · rw [hl] at h
        simp only [if_true, if_false] at h
        exact absurd h (by simp)
      · rw [Bool.not_eq_true] at hl
        rw [hl] at h
        simp only [Bool.false_eq_true, if_false] at h
        rcases ih seen h with h1 | h1
        · exact Or.inl h1
        · right
          simp [List.any_cons, h1]

lemma pyIsLower_eq_false_of_title (w : List Char) (h : pyIsTitle w = true) :
    pyIsLower w = false := by
  rcases titleGo_upper w false h with h1 | h1
  · exact absurd h1 (by simp)
  · simp [pyIsLower, h1]

lemma pyIsTitle_eq_false_of_upper_alpha (w : List Char) (hlen : 2 ≤ w.length)
    (hu : pyIsUpper w = true) (ha : pyIsAlpha w = true) :
    pyIsTitle w = false := by
  match w, hlen with
  | c1 :: c2 :: r, _ =>
    simp only [pyIsUpper, Bool.and_eq_true, Bool.not_eq_true',
      List.any_eq_false] at hu
    simp only [pyIsAlpha, Bool.and_eq_true, List.all_eq_true] at ha
    have h1 : c1.isUpper = true := by
      rcases char_upper_or_lower c1 (ha.2 c1 (by simp)) with h | h
      · exact h
      · exact absurd h (by simp [hu.2 c1 (by simp)])
    have h2 : c2.isUpper = true := by
      rcases char_upper_or_lower c2 (ha.2 c2 (by simp)) with h | h
      · exact h
      · exact absurd h (by simp [hu.2 c2 (by simp)])
    simp [pyIsTitle, pyIsTitleGo, h1, h2]

lemma resolvePER (w : List Char) :
    resolveReplacement ((r"PER").toList) w =
      (if pyIsUpper w && pyIsAlpha w then (r"[PERSON]").toList
       else if pyIsLower w then (r"[person]").toList
       else if pyIsTitle w then
         (if isSurname w then (r"[SURNAME]").toList else (r"[Person]").toList)
       else (r"[PERSON]").toList) := by
  unfold resolveReplacement
  rw [if_pos rfl]

lemma resolveLOC (w : List Char) :
    resolveReplacement ((r"LOC").toList) w =
      (if pyIsUpper w && pyIsAlpha w then (r"[PERSON]").toList
       else if pyIsTitle w && pyIsAlpha w then
         (if isLocationShaped w then (r"[LOCATION]").toList
          else (r"[Person]").toList)
       else (r"[LOCATION]").toList) := by
  have hne1 : ¬((r"LOC").toList = (r"PER").toList) := by decide
  have hne2 : ¬((r"LOC").toList = (r"ORG").toList) := by decide
  have hd : (replacementDict ((r"LOC").toList)).getD ((r"[UNKNOWN]").toList) =
      (r"[LOCATION]").toList := by decide
  unfold resolveReplacement
  rw [if_neg hne1, if_neg hne2, if_pos rfl, hd]

/-- C3: the case-preserving placeholder law for PER records that pass the
length/alphanumeric filter: all-uppercase alphabetic surfaces resolve to
the uppercase person placeholder, all-lowercase surfaces to the lowercase
one, title-case surfaces to the surname placeholder exactly when the
lowercased surface ends in a curated surname suffix and to the title-case
person placeholder otherwise, and every other casing shape to the
uppercase person placeholder; the four spec surfaces JOHN, john, John and
Ivanov resolve accordingly. -/
theorem c3_person_case_law (w : List Char) (hlen : 2 ≤ w.length)
    (hfil : pyIsAlnum (removeHyphens w) = true) :
    ((pyIsUpper w && pyIsAlpha w) = true →
      resolveReplacement ((r"PER").toList) w = (r"[PERSON]").toList) ∧
    (pyIsLower w = true →
      resolveReplacement ((r"PER").toList) w = (r"[person]").toList) ∧
    (pyIsTitle w = true → isSurname w = true →
      resolveReplacement ((r"PER").toList) w = (r"[SURNAME]").toList) ∧
    (pyIsTitle w = true → isSurname w = false →
      resolveReplacement ((r"PER").toList) w = (r"[Person]").toList) ∧
    ((pyIsUpper w && pyIsAlpha w) = false → pyIsLower w = false →
      pyIsTitle w = false →
      resolveReplacement ((r"PER").toList) w = (r"[PERSON]").toList) ∧
    resolveReplacement ((r"PER").toList) ((r"JOHN").toList) =
      (r"[PERSON]").toList ∧
    resolveReplacement ((r"PER").toList) ((r"john").toList) =
      (r"[person]").toList ∧
    resolveReplacement ((r"PER").toList) ((r"John").toList) =
      (r"[Person]").toList ∧
    resolveReplacement ((r"PER").toList) ((r"Ivanov").toList) =
      (r"[SURNAME]").toList := by
  have hblock : ∀ hu : pyIsTitle w = true, (pyIsUpper w && pyIsAlpha w) = false := by
    intro ht
    by_cases hu : pyIsUpper w = true
    · by_cases hal : pyIsAlpha w = true
      · exact absurd ht
          (by simp [pyIsTitle_eq_false_of_upper_alpha w hlen hu hal])
      · rw [Bool.not_eq_true] at hal
        simp [hal]
    · rw [Bool.not_eq_true] at hu
      simp [hu]
  refine ⟨?_, ?_, ?_, ?_, ?_, by decide, by decide, by decide, by decide⟩
  · intro h
    rw [resolvePER]
    simp [h]
  · intro h
    rw [resolvePER]
    simp [h, pyIsUpper_eq_false_of_lower w h]
  · intro ht hs
    rw [resolvePER]
    simp [ht, hs, hblock ht, pyIsLower_eq_false_of_title w ht]
  · intro ht hs
    rw [resolvePER]
    simp [ht, hs, hblock ht, pyIsLower_eq_false_of_title w ht]
  · intro h1 h2 h3
    rw [resolvePER]
    simp [h1, h2, h3]

/-- C7: the LOC resolution law for records that pass the filter: an
all-uppercase alphabetic surface is reclassified to the uppercase person
placeholder; a title-case alphabetic surface resolves to the location
placeholder exactly when its lowercasing ends with a curated location
suffix or starts with a curated location prefix, and is otherwise
reclassified to the title-case person placeholder; every other shape keeps
the base location placeholder. -/
theorem c7_location_case_law (w : List Char) (hlen : 2 ≤ w.length)
    (hfil : pyIsAlnum (removeHyphens w) = true) :
    ((pyIsUpper w && pyIsAlpha w) = true →
      resolveReplacement ((r"LOC").toList) w = (r"[PERSON]").toList) ∧
    ((pyIsTitle w && pyIsAlpha w) = true →
      (resolveReplacement ((r"LOC").toList) w = (r"[LOCATION]").toList ↔
        isLocationShaped w = true)) ∧
    ((pyIsTitle w && pyIsAlpha w) = true → isLocationShaped w = false →
      resolveReplacement ((r"LOC").toList) w = (r"[Person]").toList) ∧
    ((pyIsUpper w && pyIsAlpha w) = false →
      (pyIsTitle w && pyIsAlpha w) = false →
      resolveReplacement ((r"LOC").toList) w = (r"[LOCATION]").toList) := by
  have hblock : (pyIsTitle w && pyIsAlpha w) = true →
      (pyIsUpper w && pyIsAlpha w) = false := by
    intro hta
    rw [Bool.and_eq_true] at hta
    by_cases hu : pyIsUpper w = true
    · exact absurd hta.1
        (by simp [pyIsTitle_eq_false_of_upper_alpha w hlen hu hta.2])
    · rw [Bool.not_eq_true] at hu
      simp [hu]
  refine ⟨?_, ?_, ?_, ?_⟩
  · intro h
    rw [resolveLOC]
    simp [h]
  · intro hta
    rw [resolveLOC]
    by_cases hs : isLocationShaped w = true
    · simp [hta, hs, hblock hta]
    · rw [Bool.not_eq_true] at hs
      simp [hta, hs, hblock hta]
  · intro hta hs
    rw [resolveLOC]
    simp [hta, hs, hblock hta]
  · intro h1 h2
    rw [resolveLOC]
    simp [h1, h2]

/-- Witness for C3: the theorem applied to the concrete surface Ivanov,
whose lowercasing ends with the slavic suffix ov. -/
theorem c3_person_case_law_witness :
    resolveReplacement ((r"PER").toList) ((r"Ivanov").toList) =
      (r"[SURNAME]").toList :=
  (c3_person_case_law ((r"Ivanov").toList) (by decide) (by decide)).2.2.1
    (by decide) (by decide)

/-- Witness for C7: the theorem applied to the concrete surface Newtown,
which is title-case alphabetic and ends with the location suffix town. -/
theorem c7_location_case_law_witness :
    resolveReplacement ((r"LOC").toList) ((r"Newtown").toList) =
      (r"[LOCATION]").toList :=
  ((c7_location_case_law ((r"Newtown").toList) (by decide)
      (by decide)).2.1 (by decide)).mpr (by decide)

/-- C4 counterexample: on the whitespace-only input the core entry point
still performs its classifier call: the instrumented anonymize_text records
one posted query rather than zero, and simply returns the text unchanged
when the stubbed classifier answers with no entities. -/
theorem c4_counterexample :
    (anonymizeWithClassifier (fun _ => []) (("   ").toList)).1.length = 1 ∧
    pyStrip (("   ").toList) = [] ∧
    (anonymizeWithClassifier (fun _ => []) (("   ").toList)).2 =
      ("   ").toList :=
  ⟨rfl, by decide, by decide⟩

/-- C4 (amended): the empty-input short-circuit lives in the presentation
layer, not in anonymize_text: the core posts exactly one classifier query
for every input, while the app.py button handler skips the whole
anonymization (and shows a warning instead of an error) exactly when the
stripped input is empty. -/
theorem c4_short_circuit_in_app (classify : List Char → List NerRecord)
    (text : List Char) :
    (anonymizeWithClassifier classify text).1 = [classifierInput text] ∧
    (pyStrip text = [] → appButtonRuns text = false) ∧
    (pyStrip text ≠ [] → appButtonRuns text = true) := by
  refine ⟨rfl, ?_, ?_⟩
  · intro h
    simp [appButtonRuns, h]
  · intro h
    simp [appButtonRuns, List.isEmpty_iff, h]

/-- Witness for C4: the amended theorem applied to a single-space input. -/
theorem c4_short_circuit_in_app_witness :
    (anonymizeWithClassifier (fun _ => []) ((" ").toList)).1 =
      [classifierInput ((" ").toList)] ∧
    appButtonRuns ((" ").toList) = false := by
  have h := c4_short_circuit_in_app (fun _ => []) ((" ").toList)
  exact ⟨h.1, h.2.1 (by decide)⟩

/-- C5: the surface used by the resolution heuristics is the
classifier-returned word, computed from the case-normalized preprocessed
text, and is never re-sliced from the original text: for the original
input john is here, the posted query reads John is Here; a classifier
echoing its input returns the word John for offsets 0..4, the heuristics
resolve that title-case word to the title-case person placeholder, while
the original slice at the same offsets is john, which would resolve to the
lowercase placeholder. -/
theorem c5_surface_from_classifier_word :
    classifierInput (("john is here").toList) = ("John is Here").toList ∧
    pySlice (classifierInput (("john is here").toList)) 0 4 =
      (r"John").toList ∧
    pySlice (normalize_text (("john is here").toList)) 0 4 =
      (r"john").toList ∧
    anonymize_text [⟨(r"PER").toList, 0, 4, (r"John").toList⟩]
      (("john is here").toList) = ("[Person] is here").toList ∧
    resolveReplacement ((r"PER").toList) ((r"john").toList) =
      (r"[person]").toList ∧
    ¬((r"John").toList = (r"john").toList) :=
  ⟨by decide, by decide, by decide, by decide, by decide, by decide⟩

/-- C8 counterexample: the email span of the input hi a(at)bc.de reaches
the merged list that the rewrite folds over even though its surface fails
the alphanumeric filter, because the filter of lines 211-213 runs only
inside the classifier loop. -/
theorem c8_counterexample :
    mergedEntities [] (normalize_text (("hi a@bc.de").toList)) =
      [⟨(r"EMAIL").toList, 3, 10, (r"a@bc.de").toList, none⟩] ∧
    pyIsAlnum (removeHyphens ((r"a@bc.de").toList)) = false ∧
    2 ≤ ((r"a@bc.de").toList).length :=
  ⟨by decide, by decide, by decide⟩

/-- C8 (amended): the length/alphanumeric filter is applied to
classifier-derived records only; the merged list handed to the rewrite is
the filtered classifier spans followed by the local detector spans
appended unfiltered, and a local email span violating the filter does
reach that list. -/
theorem c8_filter_only_classifier_spans :
    (∀ (ner : List NerRecord) (e : Entity), e ∈ ner.filterMap processNer →
      2 ≤ e.word.length ∧ pyIsAlnum (removeHyphens e.word) = true) ∧
    (∀ (ner : List NerRecord) (t : List Char),
      mergedEntities ner t =
        ner.filterMap processNer ++ (detect_email t ++ detect_phone t)) ∧
    (mergedEntities [] (normalize_text (("hi a@bc.de").toList))).any
      (fun e => !(pyIsAlnum (removeHyphens e.word))) = true := by
  refine ⟨?_, fun ner t => rfl, by decide⟩
  intro ner e h
  rw [List.mem_filterMap] at h
  obtain ⟨rec, hrec, hsome⟩ := h
  unfold processNer at hsome
  split at hsome
  · cases hsome
  · rename_i hcond
    rw [Bool.or_eq_true, not_or] at hcond
    obtain ⟨h1, h2⟩ := hcond
    have h2' : pyIsAlnum (removeHyphens rec.word) = true := by
      simpa using h2
    have h1' : ¬(rec.word.length < 2) := by
      simpa using h1
    cases hsome
    constructor
    · show 2 ≤ rec.word.length
      omega
    · show pyIsAlnum (removeHyphens rec.word) = true
      exact h2' 

/-- Witness for C8: the first part of the amended theorem applied to a
concrete classifier record that survives the filter. -/
theorem c8_filter_only_classifier_spans_witness :
    2 ≤ ((r"John").toList).length ∧
    pyIsAlnum (removeHyphens ((r"John").toList)) = true :=
  c8_filter_only_classifier_spans.1
    [⟨(r"PER").toList, 0, 4, (r"John").toList⟩]
    ⟨(r"PER").toList, 0, 4, (r"John").toList,
     some (resolveReplacement ((r"PER").toList) ((r"John").toList))⟩
    (by decide)

/-- C6 counterexample: on input a+12345 the phone detector accepts three
spans (one per matching pattern of the cascade) whose matched substring
+12345 contains only 5 digits: the stripped string keeps the plus sign, so
its length reaches 6 although the digit count does not. -/
theorem c6_counterexample :
    (detect_phone (("a+12345").toList)).map
      (fun e => (e.start, e.stop, (e.word.filter Char.isDigit).length)) =
      [(1, 7, 5), (1, 7, 5), (1, 7, 5)] ∧
    (detect_phone (("a+12345").toList)).any
      (fun e => decide ((e.word.filter Char.isDigit).length < 6)) = true :=
  ⟨by decide, by decide⟩

/-- C6 (amended): the phone detector accepts a matched substring exactly
when the matched text, stripped of hyphens, dots and parentheses, still
has at least 6 characters (digits plus a possibly retained plus sign);
the spec inputs behave as stated: the sample call line yields a span with
11 digits and the two-digit input yields no span. -/
theorem c6_phone_validation :
    (∀ (t : List Char) (e : Entity),
      e ∈ detect_phone t ↔
        ∃ p ∈ phonePatterns, ∃ m ∈ finditer p t,
          6 ≤ (stripPhoneSeps (pySlice t m.1 m.2)).length ∧
          e = ⟨(r"PHONE").toList, m.1, m.2, pySlice t m.1 m.2,
               some ((r"[PHONE]").toList)⟩) ∧
    (detect_phone (("Call +1-555-123-4567 now").toList)).any
      (fun e => (e.word.filter Char.isDigit).length == 11) = true ∧
    detect_phone (("12").toList) = [] := by
  refine ⟨?_, by decide, by decide⟩
  intro t e
  constructor
  · intro h
    rw [detect_phone, List.mem_flatten] at h
    obtain ⟨l, hl, hel⟩ := h
    rw [List.mem_map] at hl
    obtain ⟨p, hp, rfl⟩ := hl
    rw [List.mem_filterMap] at hel
    obtain ⟨m, hm, hsome⟩ := hel
    simp only [Option.ite_none_right_eq_some, Option.some_inj] at hsome
    exact ⟨p, hp, m, hm, hsome.1, hsome.2.symm⟩
  · intro h
    obtain ⟨p, hp, m, hm, hlen, he⟩ := h
    rw [detect_phone, List.mem_flatten]
    refine ⟨_, List.mem_map.mpr ⟨p, hp, rfl⟩, ?_⟩
    rw [List.mem_filterMap]
    refine ⟨m, hm, ?_⟩
    simp only [Option.ite_none_right_eq_some, Option.some_inj]
    exact ⟨hlen, he.symm⟩

lemma isAlnumAt_out (t : List Char) (i : Nat) (h : t.length ≤ i) :
    isAlnumAt t i = false := by
  unfold isAlnumAt
  rw [List.getElem?_eq_none h]

lemma isAlnumAt_lt (t : List Char) (i : Nat) (h : isAlnumAt t i = true) :
    i < t.length := by
  by_contra hc
  rw [isAlnumAt_out t i (by omega)] at h
  cases h

lemma expandLeft_le (t : List Char) (s : Nat) : expandLeft t s ≤ s := by
  induction s with
  | zero => exact Nat.le_refl 0
  | succ n ih =>
    unfold expandLeft
    split
    · exact Nat.le_succ_of_le ih
    · exact Nat.le_refl _

lemma expandLeft_alnum (t : List Char) (s : Nat) :
    ∀ i, expandLeft t s ≤ i → i < s → isAlnumAt t i = true := by
  induction s with
  | zero => intro i h1 h2; omega
  | succ n ih =>
    intro i h1 h2
    unfold expandLeft at h1
    by_cases hc : isAlnumAt t n = true
    · rw [if_pos hc] at h1
      by_cases hi : i = n
      · rw [hi]; exact hc
      · exact ih i h1 (by omega)
    · rw [if_neg hc] at h1
      omega

lemma expandLeft_stop (t : List Char) (s : Nat) :
    expandLeft t s = 0 ∨ isAlnumAt t (expandLeft t s - 1) = false := by
  induction s with
  | zero => exact Or.inl rfl
  | succ n ih =>
    unfold expandLeft
    by_cases hc : isAlnumAt t n = true
    · rw [if_pos hc]; exact ih
    · rw [if_neg hc]
      right
      rw [Bool.not_eq_true] at hc
      simpa using hc

lemma expandRightF_ge (t : List Char) :
    ∀ f e, e ≤ expandRightF t f e := by
  intro f
  induction f with
  | zero => intro e; exact Nat.le_refl e
  | succ n ih =>
    intro e
    unfold expandRightF
    split
    · exact Nat.le_trans (Nat.le_succ e) (ih (e + 1))
    · exact Nat.le_refl e

lemma expandRightF_alnum (t : List Char) :
    ∀ f e i, e ≤ i → i < expandRightF t f e → isAlnumAt t i = true := by
  intro f
  induction f with
  | zero =>
    intro e i h1 h2
    unfold expandRightF at h2
    omega
  | succ n ih =>
    intro e i h1 h2
    unfold expandRightF at h2
    by_cases hc : isAlnumAt t e = true
    · rw [if_pos hc] at h2
      by_cases hi : i = e
      · rw [hi]; exact hc
      · exact ih (e + 1) i (by omega) h2
    · rw [if_neg hc] at h2
      omega

lemma expandRightF_stop (t : List Char) :
    ∀ f e, t.length ≤ e + f → isAlnumAt t (expandRightF t f e) = false := by
  intro f
  induction f with
  | zero =>
    intro e h
    unfold expandRightF
    exact isAlnumAt_out t e (by omega)
  | succ n ih =>
    intro e h
    unfold expandRightF
    by_cases hc : isAlnumAt t e = true
    · rw [if_pos hc]
      exact ih (e + 1) (by omega)
    · rw [if_neg hc]
      rw [Bool.not_eq_true] at hc
      exact hc

lemma expandRightF_le_len (t : List Char) :
    ∀ f e, e ≤ t.length → expandRightF t f e ≤ t.length := by
  intro f
  induction f with
  | zero => intro e h; exact h
  | succ n ih =>
    intro e h
    unfold expandRightF
    by_cases hc : isAlnumAt t e = true
    · rw [if_pos hc]
      exact ih (e + 1) (isAlnumAt_lt t e hc)
    · rw [if_neg hc]
      exact h

lemma expandRightF_unique (t : List Char) :
    ∀ f e r, r ≤ e + f → e ≤ r →
      (∀ i, e ≤ i → i < r → isAlnumAt t i = true) →
      isAlnumAt t r = false → expandRightF t f e = r := by
  intro f
  induction f with
  | zero =>
    intro e r h1 h2 _ _
    unfold expandRightF
    omega
  | succ n ih =>
    intro e r h1 h2 hall hstop
    unfold expandRightF
    by_cases he : e = r
    · rw [if_neg (by rw [he, hstop]; exact Bool.false_ne_true)]
      exact he
    · rw [if_pos (hall e (Nat.le_refl e) (by omega))]
      exact ih (e + 1) r (by omega) (by omega)
        (fun i hi1 hi2 => hall i (by omega) hi2) hstop

lemma expandRight_ge (t : List Char) (e : Nat) : e ≤ expandRight t e :=
  expandRightF_ge t (t.length + 1) e

lemma expandRight_alnum (t : List Char) (e i : Nat) (h1 : e ≤ i)
    (h2 : i < expandRight t e) : isAlnumAt t i = true :=
  expandRightF_alnum t (t.length + 1) e i h1 h2

lemma expandRight_stop (t : List Char) (e : Nat) :
    isAlnumAt t (expandRight t e) = false :=
  expandRightF_stop t (t.length + 1) e (by omega)

lemma expandRight_le_len (t : List Char) (e : Nat) (h : e ≤ t.length) :
    expandRight t e ≤ t.length :=
  expandRightF_le_len t (t.length + 1) e h

lemma expandRight_unique (t : List Char) (e r : Nat) (h1 : r ≤ t.length + 1 + e)
    (h2 : e ≤ r) (hall : ∀ i, e ≤ i → i < r → isAlnumAt t i = true)
    (hstop : isAlnumAt t r = false) : expandRight t e = r :=
  expandRightF_unique t (t.length + 1) e r (by omega) h2 hall hstop

lemma isAlnumAt_congr (t u : List Char) (i : Nat) (h : t[i]? = u[i]?) :
    isAlnumAt t i = isAlnumAt u i := by
  unfold isAlnumAt
  rw [h]

lemma expandLeft_congr (t u : List Char) :
    ∀ s, (∀ i, i < s → t[i]? = u[i]?) → expandLeft t s = expandLeft u s := by
  intro s
  induction s with
  | zero => intro _; rfl
  | succ n ih =>
    intro h
    unfold expandLeft
    rw [isAlnumAt_congr t u n (h n (Nat.lt_succ_self n))]
    split
    · exact ih (fun i hi => h i (by omega))
    · rfl

lemma pySlice_length (t : List Char) (a b : Nat) (h1 : a ≤ b)
    (h2 : b ≤ t.length) : (pySlice t a b).length = b - a := by
  unfold pySlice
  rw [List.length_take, List.length_drop]
  omega

lemma pySlice_getElem? (t : List Char) (a b j : Nat) :
    (pySlice t a b)[j]? = if j < b - a then t[a + j]? else none := by
  unfold pySlice
  rw [List.getElem?_take]
  split
  · rw [List.getElem?_drop]
  · rfl

lemma pyIsAlnum_iff (w : List Char) :
    pyIsAlnum w = true ↔ w ≠ [] ∧ ∀ c ∈ w, isAlnumChar c = true := by
  unfold pyIsAlnum
  rw [Bool.and_eq_true, List.all_eq_true]
  constructor
  · intro ⟨h1, h2⟩
    refine ⟨?_, h2⟩
    intro hc
    rw [hc] at h1
    cases h1
  · intro ⟨h1, h2⟩
    refine ⟨?_, h2⟩
    cases w
    · exact absurd rfl h1
    · rfl

lemma pyIsAlnum_pySlice (t : List Char) (a b : Nat) (h1 : a ≤ b)
    (h2 : b ≤ t.length) :
    pyIsAlnum (pySlice t a b) = true ↔
      (a < b ∧ ∀ i, a ≤ i → i < b → isAlnumAt t i = true) := by
  rw [pyIsAlnum_iff]
  constructor
  · intro ⟨hne, hall⟩
    have hlen := pySlice_length t a b h1 h2
    have hab : a < b := by
      rcases Nat.lt_or_ge a b with h | h
      · exact h
      · exfalso
        apply hne
        have : (pySlice t a b).length = 0 := by omega
        exact List.length_eq_zero.mp this
    refine ⟨hab, ?_⟩
    intro i hi1 hi2
    have hidx : (pySlice t a b)[i - a]? = t[i]? := by
      rw [pySlice_getElem?, if_pos (by omega)]
      congr 1
      omega
    have hlt : i < t.length := by omega
    have hsome : t[i]? = some (t.get ⟨i, hlt⟩) := List.getElem?_eq_getElem hlt
    have hmem : t.get ⟨i, hlt⟩ ∈ pySlice t a b :=
      List.getElem?_mem (hidx.trans hsome)
    have := hall _ hmem
    unfold isAlnumAt
    rw [hsome]
    exact this
  · intro ⟨hab, hall⟩
    have hlen := pySlice_length t a b h1 h2
    constructor
    · intro hc
      rw [hc] at hlen
      simp at hlen
      omega
    · intro c hc
      rw [List.mem_iff_getElem?] at hc
      obtain ⟨j, hj⟩ := hc
      rw [pySlice_getElem?] at hj
      split at hj
      · have hx := hall (a + j) (by omega) (by omega)
        unfold isAlnumAt at hx
        rw [hj] at hx
        exact hx
      · cases hj

lemma insertDesc_perm (e : Entity) (l : List Entity) :
    (insertDesc e l).Perm (e :: l) := by
  induction l with
  | nil => exact List.Perm.refl _
  | cons x xs ih =>
    unfold insertDesc
    split
    · exact List.Perm.refl _
    · exact List.Perm.trans (List.Perm.cons x ih) (List.Perm.swap e x xs)

lemma sortDesc_perm (l : List Entity) : (sortDesc l).Perm l := by
  induction l with
  | nil => exact List.Perm.refl _
  | cons e es ih =>
    unfold sortDesc
    exact List.Perm.trans (insertDesc_perm e (sortDesc es)) (List.Perm.cons e ih)

lemma insertDesc_sorted (e : Entity) (l : List Entity)
    (h : l.Pairwise (fun a b => b.start ≤ a.start)) :
    (insertDesc e l).Pairwise (fun a b => b.start ≤ a.start) := by
  induction l with
  | nil => exact List.pairwise_singleton _ e
  | cons x xs ih =>
    rw [List.pairwise_cons] at h
    unfold insertDesc
    split
    · rename_i hle
      rw [List.pairwise_cons]
      refine ⟨?_, List.pairwise_cons.mpr h⟩
      intro y hy
      rcases List.mem_cons.mp hy with h1 | h1
      · rw [h1]; exact hle
      · exact Nat.le_trans (h.1 y h1) hle
    · rename_i hgt
      rw [List.pairwise_cons]
      refine ⟨?_, ih h.2⟩
      intro y hy
      rcases List.mem_cons.mp ((insertDesc_perm e xs).mem_iff.mp hy) with h1 | h1
      · rw [h1]; omega
      · exact h.1 y h1

lemma sortDesc_sorted (l : List Entity) :
    (sortDesc l).Pairwise (fun a b => b.start ≤ a.start) := by
  induction l with
  | nil => exact List.Pairwise.nil
  | cons e es ih =>
    unfold sortDesc
    exact insertDesc_sorted e (sortDesc es) ih

lemma replaceStepT_char (t : List Char) (e : Entity)
    (h1 : e.start ≤ e.stop) (h2 : e.stop ≤ t.length) :
    ((replaceStepT t e).2 = some (expandLeft t e.start, expandRight t e.stop)
       ∨ (replaceStepT t e).2 = none) ∧
    ((replaceStepT t e).2.isSome = true ↔
      (maxAlnumRun t (expandLeft t e.start) (expandRight t e.stop) ∧
       1 < expandRight t e.stop - expandLeft t e.start)) ∧
    ((replaceStepT t e).2 = none → (replaceStepT t e).1 = t) ∧
    ((replaceStepT t e).2.isSome = true →
      (replaceStepT t e).1 =
        t.take (expandLeft t e.start) ++ effRepl e ++
          t.drop (expandRight t e.stop)) := by
  have hLs : expandLeft t e.start ≤ e.start := expandLeft_le t e.start
  have hRs : e.stop ≤ expandRight t e.stop := expandRight_ge t e.stop
  have hRlen : expandRight t e.stop ≤ t.length := expandRight_le_len t e.stop h2
  have hLR : expandLeft t e.start ≤ expandRight t e.stop := by omega
  have hbL : ((expandLeft t e.start == 0) ||
      !(isAlnumAt t (expandLeft t e.start - 1))) = true := by
    rcases expandLeft_stop t e.start with h | h
    · rw [h]; rfl
    · rw [h]
      simp
  have hbR : ((expandRight t e.stop == t.length) ||
      !(isAlnumAt t (expandRight t e.stop))) = true := by
    rw [expandRight_stop t e.stop]
    simp
  have hcond : ((expandLeft t e.start == 0 ||
      !(isAlnumAt t (expandLeft t e.start - 1))) &&
      (expandRight t e.stop == t.length ||
      !(isAlnumAt t (expandRight t e.stop)))) = true := by
    rw [hbL, hbR]
    rfl
  have hslen : (pySlice t (expandLeft t e.start) (expandRight t e.stop)).length =
      expandRight t e.stop - expandLeft t e.start :=
    pySlice_length t _ _ hLR hRlen
  unfold replaceStepT
  rw [if_pos hcond]
  by_cases hacc : (pyIsAlnum (pySlice t (expandLeft t e.start)
      (expandRight t e.stop)) &&
      decide ((pySlice t (expandLeft t e.start)
        (expandRight t e.stop)).length > 1)) = true
  · rw [if_pos hacc]
    rw [Bool.and_eq_true, decide_eq_true_eq] at hacc
    obtain ⟨ha, hb⟩ := hacc
    have hrun := (pyIsAlnum_pySlice t _ _ hLR hRlen).mp ha
    refine ⟨Or.inl rfl, ?_, ?_, ?_⟩
    · simp only [Option.isSome_some, true_iff]
      refine ⟨⟨?_, expandRight_stop t e.stop, ?_⟩, by omega⟩
      · intro i hib hia
        exact hrun.2 i hia hib
      · rcases expandLeft_stop t e.start with h | h
        · exact Or.inl h
        · exact Or.inr h
    · intro hc; cases hc
    · intro _; rfl
  · rw [if_neg hacc]
    refine ⟨Or.inr rfl, ?_, fun _ => rfl, ?_⟩
    · simp only [Option.isSome_none, Bool.false_eq_true, false_iff]
      intro ⟨hrun, hlen2⟩
      apply hacc
      rw [Bool.and_eq_true, decide_eq_true_eq]
      constructor
      · rw [pyIsAlnum_pySlice t _ _ hLR hRlen]
        refine ⟨by omega, ?_⟩
        intro i hi1 hi2
        exact hrun.1 i hi2 hi1
      · omega
    · intro hc
      rw [Option.isSome_none] at hc
      cases hc

/-- C2: spans are processed in descending start order (the sorted merged
list is pairwise descending on start); one rewrite step expands the span's
start leftward and end rightward over adjacent alphanumeric characters and
applies the replacement exactly when the expanded slice is a maximal
alphanumeric run longer than one character, splicing the replacement over
the run and leaving the text unchanged otherwise; and for a classifier
span covering only mith inside Smith is ok, the applied replacement
consumes all of Smith, spanning expanded offsets 0..5. -/
theorem c2_boundary_expansion :
    (∀ (ner : List NerRecord) (t : List Char),
      (sortDesc (mergedEntities ner t)).Pairwise
        (fun a b => b.start ≤ a.start)) ∧
    (∀ (t : List Char) (e : Entity), e.start ≤ e.stop → e.stop ≤ t.length →
      ((replaceStepT t e).2 =
          some (expandLeft t e.start, expandRight t e.stop) ∨
        (replaceStepT t e).2 = none) ∧
      ((replaceStepT t e).2.isSome = true ↔
        (maxAlnumRun t (expandLeft t e.start) (expandRight t e.stop) ∧
         1 < expandRight t e.stop - expandLeft t e.start)) ∧
      ((replaceStepT t e).2 = none → (replaceStepT t e).1 = t) ∧
      ((replaceStepT t e).2.isSome = true →
        (replaceStepT t e).1 =
          t.take (expandLeft t e.start) ++ effRepl e ++
            t.drop (expandRight t e.stop))) ∧
    anonymizeTrace [⟨(r"PER").toList, 1, 5, (r"mith").toList⟩]
        (("Smith is ok").toList) =
      (("[person] is ok").toList,
       [(⟨(r"PER").toList, 1, 5, (r"mith").toList,
          some ((r"[person]").toList)⟩, 0, 5)]) :=
  ⟨fun ner t => sortDesc_sorted (mergedEntities ner t),
   fun t e ha hb => replaceStepT_char t e ha hb,
   by decide⟩

/-- Witness for C2: the step characterization applied to a concrete text
and span. -/
theorem c2_boundary_expansion_witness :
    ((replaceStepT (("Smith is ok").toList)
        ⟨(r"PER").toList, 1, 5, (r"mith").toList,
         some ((r"[person]").toList)⟩).2 =
      some (expandLeft (("Smith is ok").toList) 1,
            expandRight (("Smith is ok").toList) 5) ∨
     (replaceStepT (("Smith is ok").toList)
        ⟨(r"PER").toList, 1, 5, (r"mith").toList,
         some ((r"[person]").toList)⟩).2 = none) ∧
    ((replaceStepT (("Smith is ok").toList)
        ⟨(r"PER").toList, 1, 5, (r"mith").toList,
         some ((r"[person]").toList)⟩).2.isSome = true ↔
      (maxAlnumRun (("Smith is ok").toList)
        (expandLeft (("Smith is ok").toList) 1)
        (expandRight (("Smith is ok").toList) 5) ∧
       1 < expandRight (("Smith is ok").toList) 5 -
         expandLeft (("Smith is ok").toList) 1)) ∧
    ((replaceStepT (("Smith is ok").toList)
        ⟨(r"PER").toList, 1, 5, (r"mith").toList,
         some ((r"[person]").toList)⟩).2 = none →
      (replaceStepT (("Smith is ok").toList)
        ⟨(r"PER").toList, 1, 5, (r"mith").toList,
         some ((r"[person]").toList)⟩).1 = ("Smith is ok").toList) ∧
    ((replaceStepT (("Smith is ok").toList)
        ⟨(r"PER").toList, 1, 5, (r"mith").toList,
         some ((r"[person]").toList)⟩).2.isSome = true →
      (replaceStepT (("Smith is ok").toList)
        ⟨(r"PER").toList, 1, 5, (r"mith").toList,
         some ((r"[person]").toList)⟩).1 =
        (("Smith is ok").toList).take
            (expandLeft (("Smith is ok").toList) 1) ++
          effRepl ⟨(r"PER").toList, 1, 5, (r"mith").toList,
            some ((r"[person]").toList)⟩ ++
          (("Smith is ok").toList).drop
            (expandRight (("Smith is ok").toList) 5)) :=
  c2_boundary_expansion.2.1 (("Smith is ok").toList)
    ⟨(r"PER").toList, 1, 5, (r"mith").toList, some ((r"[person]").toList)⟩
    (by decide) (by decide)

lemma pyTitleGo_length (r : List Char) :
    ∀ prev, (pyTitleGo prev r).length = r.length := by
  induction r with
  | nil => intro prev; rfl
  | cons c cs ih =>
    intro prev
    unfold pyTitleGo
    split
    · simp [ih]
    · simp [ih]

lemma pyCapitalize_length (w : List Char) :
    (pyCapitalize w).length = w.length := by
  cases w with
  | nil => rfl
  | cons c cs => simp [pyCapitalize]

lemma preprocessWord_length (w : List Char) :
    (preprocessWord w).length = w.length := by
  unfold preprocessWord
  split
  · split
    · exact pyTitleGo_length w false
    · rfl
  · split
    · split
      · exact pyCapitalize_length w
      · rfl
    · rfl

lemma joinSep_cons_length (c : Char) (x : List Char) (xs : List (List Char)) :
    (joinSep [c] (x :: xs)).length + 1 = sumLens (x :: xs) + (x :: xs).length := by
  induction xs generalizing x with
  | nil => simp [joinSep, sumLens]
  | cons y r ih =>
    show (x ++ [c] ++ joinSep [c] (y :: r)).length + 1 = _
    rw [List.length_append, List.length_append]
    have h1 := ih y
    have h2 : sumLens (x :: y :: r) = x.length + sumLens (y :: r) := by
      simp [sumLens]
    have h3 : ([c] : List Char).length = 1 := rfl
    have h4 : (x :: y :: r).length = (y :: r).length + 1 := rfl
    omega

lemma joinSep_single_length (c : Char) (xs : List (List Char)) :
    (joinSep [c] xs).length = sumLens xs + xs.length - 1 := by
  cases xs with
  | nil => rfl
  | cons x ys =>
    have := joinSep_cons_length c x ys
    omega

lemma sumLens_map_preprocessWord (xs : List (List Char)) :
    sumLens (xs.map preprocessWord) = sumLens xs := by
  induction xs with
  | nil => rfl
  | cons x ys ih =>
    simp [sumLens, preprocessWord_length, List.map_cons] at ih ⊢
    exact ih

lemma pySplitGo_bound (l : List Char) :
    ∀ acc, sumLens (pySplitGo l acc) + (pySplitGo l acc).length ≤
      l.length + acc.length + 1 := by
  induction l with
  | nil =>
    intro acc
    cases acc with
    | nil => simp [pySplitGo, sumLens]
    | cons a as =>
      simp [pySplitGo, sumLens]
  | cons c r ih =>
    intro acc
    unfold pySplitGo
    by_cases hs : pyIsSpace c = true
    · rw [if_pos hs]
      cases acc with
      | nil =>
        simp only [List.isEmpty_nil, if_true]
        have := ih []
        simp only [List.length_nil] at this
        simp only [List.length_cons]
        omega
      | cons a as =>
        simp only [List.isEmpty_cons, Bool.false_eq_true, if_false]
        have := ih []
        simp only [List.length_nil] at this
        have hsum : sumLens ((a :: as).reverse :: pySplitGo r []) =
            (a :: as).length + sumLens (pySplitGo r []) := by
          simp [sumLens]
        rw [hsum]
        simp only [List.length_cons]
        omega
    · rw [if_neg hs]
      have := ih (c :: acc)
      simp only [List.length_cons] at this ⊢
      omega

lemma pySplitGo_strict (l : List Char) :
    ∀ acc, (hasDoubleSpace l = true ∨
      (∃ c, l.getLast? = some c ∧ pyIsSpace c = true)) →
      sumLens (pySplitGo l acc) + (pySplitGo l acc).length ≤
        l.length + acc.length := by
  induction l with
  | nil =>
    intro acc h
    rcases h with h | ⟨c, hc, _⟩
    · cases h
    · cases hc
  | cons c r ih =>
    intro acc h
    unfold pySplitGo
    by_cases hs : pyIsSpace c = true
    · rw [if_pos hs]
      cases r with
      | nil =>
        cases acc with
        | nil => simp [pySplitGo, sumLens]
        | cons a as =>
          simp [pySplitGo, sumLens]
          omega
      | cons d r2 =>
        have hr : sumLens (pySplitGo (d :: r2) []) +
            (pySplitGo (d :: r2) []).length ≤ (d :: r2).length := by
          by_cases hd : pyIsSpace d = true
          · show sumLens (pySplitGo (d :: r2) []) +
                (pySplitGo (d :: r2) []).length ≤ (d :: r2).length
            unfold pySplitGo
            rw [if_pos hd]
            simp only [List.isEmpty_nil, if_true]
            have := pySplitGo_bound r2 []
            simp only [List.length_nil] at this
            simp only [List.length_cons]
            omega
          · apply ih
            rcases h with h | ⟨x, hx, hxs⟩
            · left
              unfold hasDoubleSpace at h
              rw [Bool.or_eq_true] at h
              rcases h with h | h
              · rw [Bool.and_eq_true] at h
                exact absurd h.2 (by simp [hd])
              · exact h
            · right
              refine ⟨x, ?_, hxs⟩
              rw [List.getLast?_cons_cons] at hx
              exact hx
        cases acc with
        | nil =>
          simp only [List.isEmpty_nil, if_true]
          simp only [List.length_cons] at hr ⊢
          omega
        | cons a as =>
          simp only [List.isEmpty_cons, Bool.false_eq_true, if_false]
          have hsum : sumLens ((a :: as).reverse :: pySplitGo (d :: r2) []) =
              (a :: as).length + sumLens (pySplitGo (d :: r2) []) := by
            simp [sumLens]
          rw [hsum]
          simp only [List.length_cons] at hr ⊢
          omega
    · rw [if_neg hs]
      cases r with
      | nil =>
        exfalso
        rcases h with h | ⟨x, hx, hxs⟩
        · cases h
        · rw [List.getLast?_singleton] at hx
          injection hx with hx
          rw [hx] at hs
          exact hs hxs
      | cons d r2 =>
        have hcond : hasDoubleSpace (d :: r2) = true ∨
            (∃ x, (d :: r2).getLast? = some x ∧ pyIsSpace x = true) := by
          rcases h with h | ⟨x, hx, hxs⟩
          · left
            unfold hasDoubleSpace at h
            rw [Bool.or_eq_true] at h
            rcases h with h | h
            · rw [Bool.and_eq_true] at h
              exact absurd h.1 (by simp [hs])
            · exact h
          · right
            refine ⟨x, ?_, hxs⟩
            rw [List.getLast?_cons_cons] at hx
            exact hx
        have := ih (c :: acc) hcond
        simp only [List.length_cons] at this ⊢
        omega

lemma lineBadWS_ne_nil (l : List Char) (h : lineBadWS l = true) : l ≠ [] := by
  intro hc
  rw [hc] at h
  cases h

lemma pySplit_strict (l : List Char) (h : lineBadWS l = true) :
    sumLens (pySplit l) + (pySplit l).length ≤ l.length := by
  unfold lineBadWS at h
  rw [Bool.or_eq_true, Bool.or_eq_true] at h
  rcases h with (hdbl | hhead) | htail
  · exact pySplitGo_strict l [] (Or.inl hdbl)
  · cases l with
    | nil => cases hhead
    | cons c r =>
      simp only [List.head?_cons] at hhead
      show sumLens (pySplitGo (c :: r) []) + (pySplitGo (c :: r) []).length ≤ _
      unfold pySplitGo
      rw [if_pos hhead]
      simp only [List.isEmpty_nil, if_true]
      have := pySplitGo_bound r []
      simp only [List.length_nil] at this
      simp only [List.length_cons]
      omega
  · cases l with
    | nil => cases htail
    | cons c r =>
      apply pySplitGo_strict
      right
      cases hx : (c :: r).getLast? with
      | none =>
        rw [hx] at htail
        cases htail
      | some x =>
        rw [hx] at htail
        exact ⟨x, rfl, htail⟩

lemma preprocessLine_length (l : List Char) :
    (preprocessLine l).length =
      sumLens (pySplit l) + (pySplit l).length - 1 := by
  unfold preprocessLine
  rw [joinSep_single_length]
  have h1 : sumLens ((pySplit l).map preprocessWord) = sumLens (pySplit l) :=
    sumLens_map_preprocessWord (pySplit l)
  have h2 : ((pySplit l).map preprocessWord).length = (pySplit l).length :=
    List.length_map _ _
  omega

lemma pySplit_bound (l : List Char) :
    sumLens (pySplit l) + (pySplit l).length ≤ l.length + 1 := by
  have := pySplitGo_bound l []
  simp only [List.length_nil] at this
  have hdef : pySplit l = pySplitGo l [] := rfl
  rw [hdef]
  omega

lemma preprocessLine_le (l : List Char) :
    (preprocessLine l).length ≤ l.length := by
  rw [preprocessLine_length]
  have := pySplit_bound l
  omega

lemma preprocessLine_lt (l : List Char) (h : lineBadWS l = true) :
    (preprocessLine l).length < l.length := by
  rw [preprocessLine_length]
  have h1 := pySplit_strict l h
  have h2 : l ≠ [] := lineBadWS_ne_nil l h
  have h3 : 1 ≤ l.length := by
    cases l with
    | nil => exact absurd rfl h2
    | cons c r => simp
  omega

lemma pySplitLines_ne_nil (t : List Char) : pySplitLines t ≠ [] := by
  cases t with
  | nil => simp [pySplitLines]
  | cons c r =>
    unfold pySplitLines
    split
    · simp
    · split
      · simp
      · simp

lemma pySplitLines_sum (t : List Char) :
    sumLens (pySplitLines t) + (pySplitLines t).length = t.length + 1 := by
  induction t with
  | nil => rfl
  | cons c r ih =>
    unfold pySplitLines
    by_cases hc : c = Char.ofNat 10
    · rw [if_pos hc]
      have h1 : sumLens ([] :: pySplitLines r) = sumLens (pySplitLines r) := by
        simp [sumLens]
      rw [h1]
      simp only [List.length_cons]
      omega
    · rw [if_neg hc]
      cases hx : pySplitLines r with
      | nil => exact absurd hx (pySplitLines_ne_nil r)
      | cons w ws =>
        rw [hx] at ih
        have h1 : sumLens ((c :: w) :: ws) = sumLens (w :: ws) + 1 := by
          simp [sumLens]
          omega
        rw [h1]
        simp only [List.length_cons] at ih ⊢
        omega

lemma sumLens_map_le (f : List Char → List Char) (L : List (List Char))
    (hle : ∀ l ∈ L, (f l).length ≤ l.length) :
    sumLens (L.map f) ≤ sumLens L := by
  induction L with
  | nil => exact Nat.le_refl _
  | cons x xs ih =>
    have hx : sumLens ((x :: xs).map f) = (f x).length + sumLens (xs.map f) := by
      simp [sumLens]
    have hx2 : sumLens (x :: xs) = x.length + sumLens xs := by
      simp [sumLens]
    rw [hx, hx2]
    have h1 : (f x).length ≤ x.length := hle x (List.mem_cons_self x xs)
    have h2 := ih (fun l hl => hle l (List.mem_cons_of_mem x hl))
    omega

lemma sumLens_map_lt (f : List Char → List Char) (L : List (List Char))
    (hle : ∀ l ∈ L, (f l).length ≤ l.length)
    (hlt : ∃ l ∈ L, (f l).length < l.length) :
    sumLens (L.map f) < sumLens L := by
  induction L with
  | nil =>
    obtain ⟨l, hl, _⟩ := hlt
    cases hl
  | cons x xs ih =>
    have hx : sumLens ((x :: xs).map f) = (f x).length + sumLens (xs.map f) := by
      simp [sumLens]
    have hx2 : sumLens (x :: xs) = x.length + sumLens xs := by
      simp [sumLens]
    rw [hx, hx2]
    have hxle : (f x).length ≤ x.length := hle x (List.mem_cons_self x xs)
    have hrest_le : sumLens (xs.map f) ≤ sumLens xs :=
      sumLens_map_le f xs (fun l hl => hle l (List.mem_cons_of_mem x hl))
    rcases hlt with ⟨l, hl, hflt⟩
    rcases List.mem_cons.mp hl with h | h
    · rw [h] at hflt
      omega
    · have := ih (fun m hm => hle m (List.mem_cons_of_mem x hm)) ⟨l, h, hflt⟩
      omega

/-- C10: whenever some line of the input has consecutive whitespace or
leading or trailing whitespace, the preprocessed text sent to the
classifier is strictly shorter than the input, so its length differs; and
classifier offsets computed against the preprocessed text do not in
general address the same characters of the original text: for the input
consisting of a space and john, the preprocessed text has John at offsets
0..4 while the original slice at those offsets is a space and joh. -/
theorem c10_preprocess_shortens (text : List Char)
    (h : ∃ l ∈ pySplitLines text, lineBadWS l = true) :
    (preprocess text).length < text.length ∧
    (preprocess text).length ≠ text.length ∧
    pySlice (preprocess ((" john").toList)) 0 4 = (r"John").toList ∧
    pySlice ((" john").toList) 0 4 ≠ (r"John").toList := by
  have hlen : (preprocess text).length =
      sumLens ((pySplitLines text).map preprocessLine) +
        (pySplitLines text).length - 1 := by
    unfold preprocess
    rw [joinSep_single_length]
    rw [List.length_map]
  have hS := pySplitLines_sum text
  have hK : 1 ≤ (pySplitLines text).length := by
    cases hx : pySplitLines text with
    | nil => exact absurd hx (pySplitLines_ne_nil text)
    | cons w ws => simp
  have hlt : sumLens ((pySplitLines text).map preprocessLine) <
      sumLens (pySplitLines text) := by
    apply sumLens_map_lt
    · intro l _
      exact preprocessLine_le l
    · obtain ⟨l, hl, hbad⟩ := h
      exact ⟨l, hl, preprocessLine_lt l hbad⟩
  refine ⟨by omega, by omega, by decide, by decide⟩

/-- Witness for C10: the theorem applied to an input whose only line holds
a double space. -/
theorem c10_preprocess_shortens_witness :
    (preprocess (("a  b").toList)).length < (("a  b").toList).length ∧
    (preprocess (("a  b").toList)).length ≠ (("a  b").toList).length ∧
    pySlice (preprocess ((" john").toList)) 0 4 = (r"John").toList ∧
    pySlice ((" john").toList) 0 4 ≠ (r"John").toList :=
  c10_preprocess_shortens (("a  b").toList) (by decide)

lemma replacementDict_getD_head (g : List Char) :
    ((replacementDict g).getD ((r"[UNKNOWN]").toList)).head? = some ('[') := by
  unfold replacementDict
  split_ifs <;> rfl

lemma resolveReplacement_head (g w : List Char) :
    (resolveReplacement g w).head? = some ('[') := by
  unfold resolveReplacement
  split_ifs <;> first | rfl | exact replacementDict_getD_head g

lemma mergedEntities_repl_head (ner : List NerRecord) (t : List Char)
    (e : Entity) (h : e ∈ mergedEntities ner t) :
    (effRepl e).head? = some ('[') := by
  unfold mergedEntities at h
  rcases List.mem_append.mp h with h1 | h1
  · rw [List.mem_filterMap] at h1
    obtain ⟨rec, _, hsome⟩ := h1
    unfold processNer at hsome
    split at hsome
    · cases hsome
    · cases hsome
      exact resolveReplacement_head _ _
  · rcases List.mem_append.mp h1 with h2 | h2
    · rw [detect_email, List.mem_map] at h2
      obtain ⟨m, _, he⟩ := h2
      rw [← he]
      show ((replacementDict ((r"EMAIL").toList)).getD
        ((r"[UNKNOWN]").toList)).head? = some ('[')
      exact replacementDict_getD_head ((r"EMAIL").toList)
    · rw [detect_phone, List.mem_flatten] at h2
      obtain ⟨l, hl, hel⟩ := h2
      rw [List.mem_map] at hl
      obtain ⟨p, _, rfl⟩ := hl
      rw [List.mem_filterMap] at hel
      obtain ⟨m, _, hsome⟩ := hel
      simp only [Option.ite_none_right_eq_some, Option.some_inj] at hsome
      rw [← hsome.2]
      rfl

lemma take_eq_getElem? (w t0 : List Char) (b i : Nat)
    (h : w.take b = t0.take b) (hi : i < b) : w[i]? = t0[i]? := by
  have h1 : (w.take b)[i]? = w[i]? := by
    rw [List.getElem?_take, if_pos hi]
  have h2 : (t0.take b)[i]? = t0[i]? := by
    rw [List.getElem?_take, if_pos hi]
  rw [← h1, ← h2, h]

lemma take_mono_eq (w t0 : List Char) (b l : Nat)
    (h : w.take b = t0.take b) (hl : l ≤ b) : w.take l = t0.take l := by
  have h1 : w.take l = (w.take b).take l := by
    rw [List.take_take]
    congr 1
    omega
  have h2 : t0.take l = (t0.take b).take l := by
    rw [List.take_take]
    congr 1
    omega
  rw [h1, h2, h]

lemma expand_eq_of_prefix (t0 w : List Char) (b : Nat) (e : Entity)
    (hb : b ≤ t0.length) (hbw : b ≤ w.length)
    (htake : w.take b = t0.take b)
    (hbar : b = w.length ∨ isAlnumAt w b = false)
    (hwf : WFSpan t0 e) (hRb : runR t0 e ≤ b) :
    expandLeft w e.start = runL t0 e ∧ expandRight w e.stop = runR t0 e := by
  obtain ⟨hss, hsl⟩ := hwf
  have hRs : e.stop ≤ expandRight t0 e.stop := expandRight_ge t0 e.stop
  have hRb' : expandRight t0 e.stop ≤ b := hRb
  have hstart_lt : e.start < b := by omega
  constructor
  · unfold runL
    apply expandLeft_congr
    intro i hi
    exact take_eq_getElem? w t0 b i htake (by omega)
  · unfold runR
    apply expandRight_unique
    · omega
    · exact hRs
    · intro i h1 h2
      have hi : i < b := by omega
      rw [isAlnumAt_congr w t0 i (take_eq_getElem? w t0 b i htake hi)]
      exact expandRight_alnum t0 e.stop i h1 h2
    · by_cases hcase : expandRight t0 e.stop < b
      · rw [isAlnumAt_congr w t0 _ (take_eq_getElem? w t0 b _ htake hcase)]
        exact expandRight_stop t0 e.stop
      · have hEq : expandRight t0 e.stop = b := by omega
        rw [hEq]
        rcases hbar with h | h
        · rw [h]
          exact isAlnumAt_out w w.length (Nat.le_refl _)
        · exact h

lemma rewriteFold_inv (t0 : List Char) :
    ∀ (es : List Entity) (w : List Char) (b : Nat)
      (acc : List (Entity × Nat × Nat)),
      b ≤ t0.length → b ≤ w.length → w.take b = t0.take b →
      (b = w.length ∨ isAlnumAt w b = false) →
      (∀ e ∈ es, WFSpan t0 e) →
      (∀ e ∈ es, runR t0 e ≤ b) →
      es.Pairwise (fun a a' => a'.start ≤ a.start) →
      es.Pairwise (DisjRuns t0) →
      (∀ e ∈ es, (effRepl e).head? = some ('[')) →
      ∃ news : List (Entity × Nat × Nat),
        (es.foldl rewriteStep (w, acc)).2 = acc ++ news ∧
        (news.map Prod.fst).Sublist es ∧
        ∀ x ∈ news, x.2.1 = runL t0 x.1 ∧ x.2.2 = runR t0 x.1 := by
  intro es
  induction es with
  | nil =>
    intro w b acc _ _ _ _ _ _ _ _ _
    exact ⟨[], by simp, List.Sublist.refl _, by simp⟩
  | cons e es' ih =>
    intro w b acc hb hbw htake hbar hwf hrun hsort hdisj hrep
    have hwfe : WFSpan t0 e := hwf e (List.mem_cons_self e es')
    have hRbe : runR t0 e ≤ b := hrun e (List.mem_cons_self e es')
    obtain ⟨hL, hR⟩ :=
      expand_eq_of_prefix t0 w b e hb hbw htake hbar hwfe hRbe
    have hss : e.start < e.stop := hwfe.1
    have hsl : e.stop ≤ t0.length := hwfe.2
    have hstople : e.stop ≤ w.length := by
      have h1 : e.stop ≤ runR t0 e := expandRight_ge t0 e.stop
      omega
    have hchar := replaceStepT_char w e (by omega) hstople
    show ∃ news, ((es'.foldl rewriteStep (rewriteStep (w, acc) e)).2 = acc ++ news) ∧ _ ∧ _
    rcases hchar.1 with hsome | hnone
    · -- the replacement is applied at the original run
      have hw' : (replaceStepT w e).1 =
          w.take (expandLeft w e.start) ++ effRepl e ++
            w.drop (expandRight w e.stop) :=
        hchar.2.2.2 (by rw [hsome]; rfl)
      have hstep : rewriteStep (w, acc) e =
          ((replaceStepT w e).1, acc ++ [(e, runL t0 e, runR t0 e)]) := by
        unfold rewriteStep
        rw [hL, hR] at hsome
        cases hx : replaceStepT w e with
        | mk t' o =>
          rw [hx] at hsome
          simp only at hsome
          rw [hsome]
      -- the new working text and barrier
      have hLle : runL t0 e ≤ e.start := by
        rw [← hL]
        exact hL ▸ expandLeft_le t0 e.start
      have hRge : e.stop ≤ runR t0 e := expandRight_ge t0 e.stop
      have hLR : runL t0 e < runR t0 e := by omega
      have hLlen : runL t0 e ≤ w.length := by omega
      obtain ⟨rrest, hrval⟩ : ∃ rest, effRepl e = '[' :: rest := by
        have := hrep e (List.mem_cons_self e es')
        cases hv : effRepl e with
        | nil => rw [hv] at this; cases this
        | cons c cs =>
          rw [hv] at this
          simp only [List.head?_cons, Option.some_inj] at this
          rw [this]
          exact ⟨cs, rfl⟩
      have htakelen : (w.take (runL t0 e)).length = runL t0 e := by
        rw [List.length_take]
        omega
      have hw'take : (replaceStepT w e).1.take (runL t0 e) = t0.take (runL t0 e) := by
        rw [hw', hL, hR]
        rw [List.append_assoc]
        rw [List.take_append_eq_append_take]
        rw [htakelen]
        have hz : runL t0 e - runL t0 e = 0 := by omega
        rw [hz]
        simp only [List.take_zero, List.append_nil, List.take_take]
        have hmin : runL t0 e ⊓ runL t0 e = runL t0 e := by omega
        rw [hmin]
        exact take_mono_eq w t0 b (runL t0 e) htake (by omega)
      have hw'len : runL t0 e ≤ (replaceStepT w e).1.length := by
        rw [hw', hL, hR]
        rw [List.length_append, List.length_append]
        omega
      have hw'bar : isAlnumAt (replaceStepT w e).1 (runL t0 e) = false := by
        rw [hw', hL, hR]
        unfold isAlnumAt
        rw [List.append_assoc]
        rw [List.getElem?_append]
        rw [htakelen]
        rw [if_neg (by omega)]
        have hz : runL t0 e - runL t0 e = 0 := by omega
        rw [hz, hrval]
        rw [List.cons_append, List.getElem?_cons_zero]
        decide
      -- remaining runs end before the new barrier
      have hrun' : ∀ e' ∈ es', runR t0 e' ≤ runL t0 e := by
        intro e' he'
        have hstart : e'.start ≤ e.start :=
          (List.pairwise_cons.mp hsort).1 e' he'
        have hdisj' : DisjRuns t0 e e' :=
          (List.pairwise_cons.mp hdisj).1 e' he'
        have hwfe' : WFSpan t0 e' := hwf e' (List.mem_cons_of_mem e he')
        rcases hdisj' with hcase | hcase
        · exfalso
          have h1 : expandLeft t0 e'.start ≤ e'.start := expandLeft_le t0 e'.start
          have h2 : e.stop ≤ expandRight t0 e.stop := expandRight_ge t0 e.stop
          unfold runL runR at hcase
          omega
        · exact hcase
      have hIH := ih (replaceStepT w e).1 (runL t0 e)
        (acc ++ [(e, runL t0 e, runR t0 e)])
        (by omega) hw'len hw'take (Or.inr hw'bar)
        (fun x hx => hwf x (List.mem_cons_of_mem e hx))
        hrun'
        (List.pairwise_cons.mp hsort).2
        (List.pairwise_cons.mp hdisj).2
        (fun x hx => hrep x (List.mem_cons_of_mem e hx))
      obtain ⟨news', hacc', hsub', hruns'⟩ := hIH
      refine ⟨(e, runL t0 e, runR t0 e) :: news', ?_, ?_, ?_⟩
      · rw [hstep, hacc']
        rw [List.append_assoc]
        rfl
      · exact List.Sublist.cons₂ e hsub'
      · intro x hx
        rcases List.mem_cons.mp hx with h | h
        · rw [h]
          exact ⟨rfl, rfl⟩
        · exact hruns' x h
    · -- the span is skipped: text and trace unchanged
      have hskip : rewriteStep (w, acc) e = (w, acc) := by
        have ht' : (replaceStepT w e).1 = w := hchar.2.2.1 hnone
        unfold rewriteStep
        cases hx : replaceStepT w e with
        | mk t' o =>
          rw [hx] at hnone ht'
          simp only at hnone ht'
          rw [hnone, ht']
      rw [hskip]
      have hIH := ih w b acc hb hbw htake hbar
        (fun x hx => hwf x (List.mem_cons_of_mem e hx))
        (fun x hx => hrun x (List.mem_cons_of_mem e hx))
        (List.pairwise_cons.mp hsort).2
        (List.pairwise_cons.mp hdisj).2
        (fun x hx => hrep x (List.mem_cons_of_mem e hx))
      obtain ⟨news', hacc', hsub', hruns'⟩ := hIH
      exact ⟨news', hacc', List.Sublist.cons e hsub', hruns'⟩

/-- C1 counterexample: with two overlapping stubbed classifier spans over
abcdefgh the rewrite applies both replacements: the first span expands to
the whole token and is replaced, and the second span then lands inside the
replacement placeholder, whose interior person is a maximal alphanumeric
run, so it is replaced as well: the applied spans (2,8) and (1,3) share
original-text offset 2 and the output nests one placeholder in another. -/
theorem c1_counterexample :
    ((anonymizeTrace [⟨(r"PER").toList, 2, 8, (r"cdefgh").toList⟩,
        ⟨(r"PER").toList, 1, 3, (r"bc").toList⟩]
      (("abcdefgh").toList)).2.map (fun x => (x.1.start, x.1.stop)) =
      [(2, 8), (1, 3)]) ∧
    ¬((anonymizeTrace [⟨(r"PER").toList, 2, 8, (r"cdefgh").toList⟩,
        ⟨(r"PER").toList, 1, 3, (r"bc").toList⟩]
      (("abcdefgh").toList)).2.Pairwise (fun x y => SpansDisjoint x.1 y.1)) ∧
    (anonymizeTrace [⟨(r"PER").toList, 2, 8, (r"cdefgh").toList⟩,
        ⟨(r"PER").toList, 1, 3, (r"bc").toList⟩]
      (("abcdefgh").toList)).1 = ("[[person]]").toList :=
  ⟨by decide, by decide, by decide⟩

/-- C1 (amended): when the merged spans are well-formed and their
whole-word expansions in the normalized original text are pairwise
disjoint, every applied replacement is spliced exactly at the span's
original-text expansion (so the right-to-left rewrite never works on
corrupted offsets) and the applied spans are pairwise non-overlapping in
original-text offsets. -/
theorem c1_applied_spans_non_overlapping (ner : List NerRecord)
    (text : List Char)
    (hwf : ∀ e ∈ mergedEntities ner (normalize_text text),
      WFSpan (normalize_text text) e)
    (hdisj : (mergedEntities ner (normalize_text text)).Pairwise
      (DisjRuns (normalize_text text))) :
    (∀ x ∈ (anonymizeTrace ner text).2,
      x.2.1 = runL (normalize_text text) x.1 ∧
      x.2.2 = runR (normalize_text text) x.1) ∧
    (anonymizeTrace ner text).2.Pairwise
      (fun x y => SpansDisjoint x.1 y.1) := by
  have hperm := sortDesc_perm (mergedEntities ner (normalize_text text))
  have hsym : ∀ {x y : Entity}, DisjRuns (normalize_text text) x y →
      DisjRuns (normalize_text text) y x := fun h => Or.symm h
  have hdisj' : (sortDesc (mergedEntities ner (normalize_text text))).Pairwise
      (DisjRuns (normalize_text text)) :=
    (List.Perm.pairwise_iff hsym hperm).mpr hdisj
  have hwf' : ∀ e ∈ sortDesc (mergedEntities ner (normalize_text text)),
      WFSpan (normalize_text text) e :=
    fun e he => hwf e (hperm.mem_iff.mp he)
  have hrun : ∀ e ∈ sortDesc (mergedEntities ner (normalize_text text)),
      runR (normalize_text text) e ≤ (normalize_text text).length :=
    fun e he => expandRight_le_len (normalize_text text) e.stop (hwf' e he).2
  have hrep : ∀ e ∈ sortDesc (mergedEntities ner (normalize_text text)),
      (effRepl e).head? = some ('[') :=
    fun e he =>
      mergedEntities_repl_head ner (normalize_text text) e (hperm.mem_iff.mp he)
  obtain ⟨news, hacc, hsub, hruns⟩ :=
    rewriteFold_inv (normalize_text text)
      (sortDesc (mergedEntities ner (normalize_text text)))
      (normalize_text text) (normalize_text text).length []
      (Nat.le_refl _) (Nat.le_refl _) rfl (Or.inl rfl)
      hwf' hrun
      (sortDesc_sorted (mergedEntities ner (normalize_text text)))
      hdisj' hrep
  have htrace : (anonymizeTrace ner text).2 = news := by
    show ((sortDesc (mergedEntities ner (normalize_text text))).foldl
      rewriteStep (normalize_text text, [])).2 = news
    rw [hacc]
    exact List.nil_append news
  constructor
  · intro x hx
    rw [htrace] at hx
    exact hruns x hx
  · rw [htrace]
    have hp1 : (news.map Prod.fst).Pairwise (DisjRuns (normalize_text text)) :=
      List.Pairwise.sublist hsub hdisj'
    have hp2 : news.Pairwise
        (fun x y => DisjRuns (normalize_text text) x.1 y.1) :=
      List.pairwise_map.mp hp1
    apply List.Pairwise.imp_of_mem ?_ hp2
    intro x y hx hy hxy
    have hmx : x.1 ∈ mergedEntities ner (normalize_text text) :=
      hperm.mem_iff.mp (hsub.subset (List.mem_map_of_mem Prod.fst hx))
    have hmy : y.1 ∈ mergedEntities ner (normalize_text text) :=
      hperm.mem_iff.mp (hsub.subset (List.mem_map_of_mem Prod.fst hy))
    have hwx : WFSpan (normalize_text text) x.1 := hwf x.1 hmx
    have hwy : WFSpan (normalize_text text) y.1 := hwf y.1 hmy
    have hgx : x.1.stop ≤ runR (normalize_text text) x.1 :=
      expandRight_ge (normalize_text text) x.1.stop
    have hgy : y.1.stop ≤ runR (normalize_text text) y.1 :=
      expandRight_ge (normalize_text text) y.1.stop
    have hlx : runL (normalize_text text) x.1 ≤ x.1.start :=
      expandLeft_le (normalize_text text) x.1.start
    have hly : runL (normalize_text text) y.1 ≤ y.1.start :=
      expandLeft_le (normalize_text text) y.1.start
    rcases hxy with h | h
    · left
      omega
    · right
      omega

/-- Witness for C1: the amended theorem applied to two disjoint stub spans
over ab cd. -/
theorem c1_applied_spans_non_overlapping_witness :
    (∀ x ∈ (anonymizeTrace [⟨(r"PER").toList, 0, 2, (r"Ab").toList⟩,
        ⟨(r"PER").toList, 3, 5, (r"Cd").toList⟩] (("ab cd").toList)).2,
      x.2.1 = runL (normalize_text (("ab cd").toList)) x.1 ∧
      x.2.2 = runR (normalize_text (("ab cd").toList)) x.1) ∧
    (anonymizeTrace [⟨(r"PER").toList, 0, 2, (r"Ab").toList⟩,
        ⟨(r"PER").toList, 3, 5, (r"Cd").toList⟩]
      (("ab cd").toList)).2.Pairwise (fun x y => SpansDisjoint x.1 y.1) :=
  c1_applied_spans_non_overlapping
    [⟨(r"PER").toList, 0, 2, (r"Ab").toList⟩,
     ⟨(r"PER").toList, 3, 5, (r"Cd").toList⟩]
    (("ab cd").toList) (by decide) (by decide)
